import Mathlib

/-!
# rss-collector: shallow embedding and verification

A shallow embedding of the extraction-and-reconciliation pipeline of the
`rss_collector` Django application (files `services.py`, `utils.py`,
`tasks.py`, `models.py`), together with theorems settling the frozen
claims about it.

Modelling conventions:
* timezone-aware datetimes are modelled as `Int` (an instant on a totally
  ordered timeline); `timedelta(minutes=m)` is `60 * m` on that line;
* Python's `str.strip()` is the executable `pyStrip`;
* dynamically typed field values flowing through `has_changed` are the
  inductive `PyVal`; a Python expression that raises (e.g. calling
  `.strip()` on a `datetime` or a non-empty `list`) is `Option.none` — an
  uncaught exception propagating out of the function;
* the article store is a `List Article`; `Article.url` carries a database
  unique constraint (`URLField(unique=True)` in `models.py`), so rows are
  keyed by URL and `bulk_create(..., ignore_conflicts=True)` skips an
  incoming row whose URL is already present;
* network- and library-dependent steps (the HTTP fetch, `strptime` with a
  configured format string, `markdownify`, `newspaper3k`) are inputs or
  function parameters of the embedding, so each run is a pure function of
  the environment's answers.
-/

set_option maxHeartbeats 2000000

/-- A timezone-aware instant (`datetime`), modelled as a point on an
integer timeline. -/
abbrev DateTime := Int

/-- Python's whitespace set for `str.strip()`: space, tab, newline,
carriage return, vertical tab and form feed. -/
def isPyWhitespace (c : Char) : Bool :=
  c = Char.ofNat 32 || c = Char.ofNat 9 || c = Char.ofNat 10 ||
  c = Char.ofNat 13 || c = Char.ofNat 11 || c = Char.ofNat 12

/-- Drop the leading whitespace characters. -/
def dropLeadingWS : List Char → List Char
  | [] => []
  | c :: cs => if isPyWhitespace c then dropLeadingWS cs else c :: cs

/-- Python's `str.strip()`: remove leading and trailing whitespace. -/
def pyStrip (s : String) : String :=
  ⟨(dropLeadingWS (dropLeadingWS s.data).reverse).reverse⟩

/-- Python's `s[:n]` on a string: the first `n` code points. -/
def pyTake (s : String) (n : Nat) : String :=
  ⟨s.data.take n⟩

/-- Split a character list on a separator character, Python
`str.split(sep)` style: `""` splits to `[""]`, separators at the ends
produce empty groups. -/
def splitOnChar (c : Char) : List Char → List (List Char)
  | [] => [[]]
  | x :: rest =>
    let r := splitOnChar c rest
    if x = c then [] :: r
    else
      match r with
      | [] => [[x]]
      | g :: gs => (x :: g) :: gs

/-- Python's `s.split(sep)` for a one-character separator. -/
def pySplit (s : String) (c : Char) : List String :=
  (splitOnChar c s.data).map (fun l => ⟨l⟩)

/-- A dynamically typed Python value as it can reach `has_changed` in
`services.py`: `None`, a string, a list of strings, or a `datetime`. -/
inductive PyVal where
  | vNone : PyVal
  | vStr : String → PyVal
  | vList : List String → PyVal
  | vDT : DateTime → PyVal
deriving DecidableEq, Repr

/-- `(x or "").strip()` from `services.py`.  `None`, `""` and `[]` are
falsy, so they become `""`; a non-empty string is stripped; a `datetime`
or a non-empty list is truthy, and `.strip()` on it raises
`AttributeError` (`Option.none`). -/
def pyOrEmptyStrip : PyVal → Option String
  | .vNone => some ""
  | .vStr s => some (pyStrip s)
  | .vList [] => some ""
  | .vList (_ :: _) => none
  | .vDT _ => none

/-- `has_changed` from `services.py` (lines 98–106): two `datetime`s are
compared with strict `>`; two lists with `!=`; anything else falls back to
`(old_value or "").strip() != (new_value or "").strip()`, which raises
(`Option.none`) when a `datetime` or non-empty list reaches `.strip()`. -/
def has_changed (old_value new_value : PyVal) : Option Bool :=
  match old_value, new_value with
  | .vDT o, .vDT n => some (decide (n > o))
  | .vList o, .vList n => some (decide (o ≠ n))
  | _, _ => do
      let so ← pyOrEmptyStrip old_value
      let sn ← pyOrEmptyStrip new_value
      pure (decide (so ≠ sn))

/-- One normalized entry emitted by an extractor (the dict appended to
`results` in `utils.py`), as consumed by `process_feeds`.  A missing URL
tag yields `url = ""` (the generic extractor's `get_text` returns `""`
for an absent tag). -/
structure Entry where
  url : String
  title : String
  summary : String
  content : String
  authors : List String
  categories : List String
  meta_keywords : List String
  published : Option DateTime
deriving DecidableEq, Repr

/-- A persisted `Article` row (`models.py`), restricted to the columns the
pipeline reads and writes.  `url` carries a unique constraint. -/
structure Article where
  url : String
  title : String
  content : String
  authors : List String
  categories : List String
  meta_keywords : List String
  published_at : Option DateTime
deriving DecidableEq, Repr

/-- The `Article(...)` constructor call in `process_feeds` building a new
row from an entry. -/
def entryToArticle (e : Entry) : Article :=
  { url := e.url
    title := e.title
    content := e.content
    authors := e.authors
    categories := e.categories
    meta_keywords := e.meta_keywords
    published_at := e.published }

/-- `published_at` (or the incoming `entry.get("published")`) as the
dynamic value handed to `has_changed`: `None` or a `datetime`. -/
def pubVal : Option DateTime → PyVal
  | none => PyVal.vNone
  | some t => PyVal.vDT t

/-- The per-entry field loop of `process_feeds` (lines 108–121): for each
of `title`, `content`, `authors`, `categories`, `meta_keywords`,
`published_at` — in the insertion order of the Python dict literal — run
`has_changed` and, when it reports a change, `setattr` the incoming value.
Returns the article's state after the loop and whether any field changed;
`Option.none` is an exception escaping `has_changed`. -/
def updateFromEntry (a : Article) (e : Entry) : Option (Article × Bool) := do
  let c1 ← has_changed (.vStr a.title) (.vStr e.title)
  let a := if c1 then { a with title := e.title } else a
  let c2 ← has_changed (.vStr a.content) (.vStr e.content)
  let a := if c2 then { a with content := e.content } else a
  let c3 ← has_changed (.vList a.authors) (.vList e.authors)
  let a := if c3 then { a with authors := e.authors } else a
  let c4 ← has_changed (.vList a.categories) (.vList e.categories)
  let a := if c4 then { a with categories := e.categories } else a
  let c5 ← has_changed (.vList a.meta_keywords) (.vList e.meta_keywords)
  let a := if c5 then { a with meta_keywords := e.meta_keywords } else a
  let c6 ← has_changed (pubVal a.published_at) (pubVal e.published)
  let a := if c6 then { a with published_at := e.published } else a
  pure (a, c1 || c2 || c3 || c4 || c5 || c6)

/-- The dict comprehension `{a.url: a for a in existing_articles}`: an
association list keyed by URL, a later binding overwriting an earlier one
in place. -/
def mapInsert (m : List (String × Article)) (k : String) (v : Article) :
    List (String × Article) :=
  if m.any (fun p => p.1 = k) then
    m.map (fun p => if p.1 = k then (k, v) else p)
  else m ++ [(k, v)]

/-- `existing_articles_map.get(url)`. -/
def mapGet (m : List (String × Article)) (k : String) : Option Article :=
  (m.find? (fun p => p.1 = k)).map (·.2)

/-- Build `existing_articles_map` from the batch-read rows. -/
def buildMap (articles : List Article) : List (String × Article) :=
  articles.foldl (fun m a => mapInsert m a.url a) []

/-- `Article.objects.bulk_create(new_objects, ignore_conflicts=True)`:
rows are inserted in order, and a row whose unique `url` already exists —
in the table or earlier in the same batch — is silently skipped. -/
def bulkCreateIgnoreConflicts (db : List Article) (objs : List Article) :
    List Article :=
  objs.foldl
    (fun acc o => if acc.any (fun a => a.url = o.url) then acc else acc ++ [o])
    db

instance exceptDecEq {e a : Type} [DecidableEq e] [DecidableEq a] :
    DecidableEq (Except e a)
  | .error x, .error y =>
    if h : x = y then isTrue (by rw [h])
    else isFalse (by intro hc; cases hc; exact h rfl)
  | .error _, .ok _ => isFalse (by intro hc; cases hc)
  | .ok _, .error _ => isFalse (by intro hc; cases hc)
  | .ok x, .ok y =>
    if h : x = y then isTrue (by rw [h])
    else isFalse (by intro hc; cases hc; exact h rfl)

/-- One per-feed input of `process_feeds`.  `parseResult` is the value the
`parse_feed` call produces for this feed in this run (`Except.error`
models an exception escaping `parse_feed`); `bulkInsertFails` is the
environment's answer to whether `bulk_create` raises `IntegrityError` on
this feed's batch. -/
structure FeedInput where
  name : String
  url : String
  last_fetched : Option DateTime
  next_fetch : Option DateTime
  call_frequency : Int
  parseResult : Except String (List Entry)
  bulkInsertFails : Bool
deriving DecidableEq, Repr

/-- One per-feed result dict of `process_feeds`: the error branches carry
`{"feed", "error", "added": 0, "updated": 0}`; the success branch carries
`{"feed", "added", "updated", "total_articles"}`. -/
structure FeedResult where
  feed : String
  added : Nat
  updated : Nat
  error : Option String
  total_articles : Option Nat
deriving DecidableEq, Repr

/-- The update loop of `process_feeds` over `existing_entries`: look each
entry's URL up in the (mutable) map, run the field loop, and append the
mutated article object to `updated_articles` when it changed.  The map
reflects in-memory `setattr` mutations, so a later entry with the same URL
sees them; `upd` records the appended objects by URL, duplicates
included.  `Option.none` is an uncaught exception from `has_changed`. -/
def updateLoop : List Entry → List (String × Article) → List String →
    Option (List (String × Article) × List String)
  | [], m, upd => some (m, upd)
  | e :: rest, m, upd =>
    match mapGet m e.url with
    | none => updateLoop rest m upd
    | some article =>
      match updateFromEntry article e with
      | none => none
      | some (a2, changed) =>
        if changed then updateLoop rest (mapInsert m e.url a2) (upd ++ [e.url])
        else updateLoop rest m upd

/-- `entry_urls`: the candidate URLs of the batch read, empty strings
excluded (`[entry.get("url") for entry in entries if entry.get("url")]`). -/
def entryUrlsOf (entries : List Entry) : List String :=
  (entries.map (·.url)).filter (fun s => s ≠ "")

/-- `existing_articles`: the one batch read
`Article.objects.filter(url__in=entry_urls)`. -/
def existingArticlesOf (db : List Article) (entries : List Entry) :
    List Article :=
  db.filter (fun a => a.url ∈ entryUrlsOf entries)

/-- `existing_articles_map`. -/
def existingMapOf (db : List Article) (entries : List Entry) :
    List (String × Article) :=
  buildMap (existingArticlesOf db entries)

/-- `existing_urls = set(existing_articles_map.keys())`. -/
def existingUrlsOf (db : List Article) (entries : List Entry) :
    List String :=
  (existingMapOf db entries).map (·.1)

/-- `new_entries`. -/
def newEntriesOf (db : List Article) (entries : List Entry) : List Entry :=
  entries.filter (fun e => e.url ∉ existingUrlsOf db entries)

/-- `existing_entries`. -/
def existingEntriesOf (db : List Article) (entries : List Entry) :
    List Entry :=
  entries.filter (fun e => e.url ∈ existingUrlsOf db entries)

/-- `new_objects`: the `Article(...)` rows built for the new entries. -/
def newObjectsOf (db : List Article) (entries : List Entry) : List Article :=
  (newEntriesOf db entries).map entryToArticle

/-- The guarded bulk insert of `process_feeds`: nothing happens on an
empty batch; an `IntegrityError` (environment flag `bif`) leaves the
store untouched and the count `0`; otherwise the ignore-on-conflict
insert runs and `new_count = len(new_objects)` — the attempted batch
length, not the number of rows the store accepted.  `bfail` is the
environment's `IntegrityError` answer for this batch. -/
def insertPhase (db : List Article) (bfail : Bool) (entries : List Entry) :
    List Article × Nat :=
  if (newObjectsOf db entries).isEmpty then (db, 0)
  else if bfail then (db, 0)
  else (bulkCreateIgnoreConflicts db (newObjectsOf db entries),
    (newObjectsOf db entries).length)

/-- `bulk_update(updated_articles, [...])`: write the final in-memory
state of each article object that was appended to `updated_articles`
back to its row (rows are keyed by the unique URL). -/
def applyUpdates (db1 : List Article) (mF : List (String × Article))
    (upd : List String) : List Article :=
  db1.map (fun row =>
    if row.url ∈ upd then (mapGet mF row.url).getD row else row)

/-- The `update_last_fetched` bookkeeping: `last_fetched = now`,
`next_fetch = now + timedelta(minutes=call_frequency)`. -/
def bookkeep (f : FeedInput) (u : Bool) (now : DateTime) : FeedInput :=
  if u then
    { f with last_fetched := some now
             next_fetch := some (now + 60 * f.call_frequency) }
  else f

/-- Outcome of processing one feed: the store afterwards, the feed row
afterwards (its bookkeeping fields may have advanced) and the result
dict. -/
structure PerFeed where
  db : List Article
  feed : FeedInput
  result : FeedResult
deriving DecidableEq, Repr

/-- The body of the `for feed in feeds` loop of `process_feeds`
(`services.py` lines 27–141) for one feed: the missing-fields guard, the
guarded `parse_feed` call, the batch read keyed by the non-empty entry
URLs, the partition into new and existing entries, the ignore-on-conflict
bulk insert (counted by attempted length, `0` on `IntegrityError`), the
field-level update loop followed by `bulk_update`, and — when
`update_last_fetched` is set — the `last_fetched`/`next_fetch`
bookkeeping.  `Option.none` is an exception raised outside the single
`try` (which guards only `parse_feed`) and so propagating out of
`process_feeds`. -/
def processFeed (db : List Article) (now : DateTime)
    (update_last_fetched : Bool) (feed : FeedInput) : Option PerFeed :=
  if feed.name = "" ∨ feed.url = "" then
    some ⟨db, feed,
      ⟨feed.url, 0, 0,
        some "Missing required fields (name or URL), skipping.", none⟩⟩
  else
    match feed.parseResult with
    | .error msg =>
      some ⟨db, feed,
        ⟨feed.name, 0, 0, some ("Failed to parse feed: " ++ msg), none⟩⟩
    | .ok entries =>
      match updateLoop (existingEntriesOf db entries)
          (existingMapOf db entries) [] with
      | none => none
      | some (mF, upd) =>
        some ⟨applyUpdates
            (insertPhase db feed.bulkInsertFails entries).1 mF upd,
          bookkeep feed update_last_fetched now,
          ⟨feed.name, (insertPhase db feed.bulkInsertFails entries).2,
            upd.length, none, some entries.length⟩⟩

/-- The value returned by `process_feeds`: the store and feed rows after
the run, plus `{"total_new": ..., "details": [...]}`. -/
structure RunOutcome where
  db : List Article
  feeds : List FeedInput
  total_new : Nat
  details : List FeedResult
deriving DecidableEq, Repr

/-- `process_feeds` (`services.py`): fold the per-feed body over the input
feeds, accumulating the result dicts and `total_new`.  `Option.none` is an
exception escaping the loop body outside its `try`, aborting the whole
call — no result list is returned in that case. -/
def process_feeds (db : List Article) (now : DateTime)
    (update_last_fetched : Bool) : List FeedInput → Option RunOutcome
  | [] => some ⟨db, [], 0, []⟩
  | f :: rest =>
    match processFeed db now update_last_fetched f with
    | none => none
    | some pf =>
      match process_feeds pf.db now update_last_fetched rest with
      | none => none
      | some out =>
        some ⟨out.db, pf.feed :: out.feeds,
          pf.result.added + out.total_new, pf.result :: out.details⟩

/-- The outcome of the `requests.get` + parse step at the top of each
extractor: `failure` models a network error, timeout or non-2xx status
(`raise_for_status`), `success` the decoded payload. -/
inductive Fetched (α : Type) where
  | failure : String → Fetched α
  | success : α → Fetched α
deriving Repr

/-- The filter block shared verbatim by all three extractors
(`utils.py`, e.g. lines 101–105): drop when `start_date and published and
published < start_date`, or `end_date and published and published >
end_date`, or `last_fetched and not start_date and published and
published <= last_fetched`.  A `datetime` is always truthy, so truthiness
of the optional bounds is `Option.isSome`. -/
def dropByDates (start_date end_date last_fetched published :
    Option DateTime) : Bool :=
  (match start_date, published with
    | some s, some p => decide (p < s)
    | _, _ => false)
  || (match end_date, published with
    | some e2, some p => decide (p > e2)
    | _, _ => false)
  || (match last_fetched, start_date, published with
    | some t, none, some p => decide (p ≤ t)
    | _, _, _ => false)

/-- `if max_entries: entries = entries[:max_entries]` — `0` and `None`
are both falsy, leaving the list untouched. -/
def takeMaxEntries {α : Type} (max_entries : Option Nat) (l : List α) :
    List α :=
  match max_entries with
  | some n => if n = 0 then l else l.take n
  | none => l

/-- What `newspaper3k` yields for one article URL when
`extract_full_content` is set: `Option.none` models
`article.download()`/`article.parse()` raising; `keywords = none` models
`article.nlp()` raising. -/
structure NewsArticle where
  text : String
  authors : List String
  keywords : Option (List String)

/-- The `extract_full_content` enrichment block shared by the generic and
HTML extractors: replace `content` when the fetched text is non-empty and
strictly longer, replace `authors` when non-empty, take `keywords or []`
when `nlp` succeeded. -/
def enrichContent (extract_full_content : Bool)
    (newspaper : String → Option NewsArticle) (url : String)
    (content : String) (authors meta_keywords : List String) :
    String × List String × List String :=
  if extract_full_content then
    match newspaper url with
    | none => (content, authors, meta_keywords)
    | some art =>
      ((if art.text ≠ "" ∧ art.text.length > content.length then
          pyStrip art.text else content),
       (if art.authors ≠ [] then art.authors else authors),
       (match art.keywords with
        | none => meta_keywords
        | some ks => ks))
  else (content, authors, meta_keywords)

/-- One `<item>`/`<entry>` element of the generic extractor, read through
its configured tag names: each scalar field is
`entry.find(tag).get_text(strip=True)` with `""` for an absent tag;
`categories` are the stripped texts of all tags matching
`categories_field`; `pub_raw` is the text of the published tag. -/
structure RawEntry where
  url : String
  title : String
  description : String
  content : String
  author : String
  categories : List String
  pub_raw : String
deriving DecidableEq, Repr

/-- `parse_generic_feed` (`utils.py` lines 40–147).  The fetch, the
`strptime`-with-`feed.date_format` date parser, `markdownify`
(`clean_to_markdown`) and `newspaper3k` are environment parameters.  A
fetch failure — and an XML payload with no `<item>`/`<entry>` tags, i.e.
`success []` — returns `[]`.  Note this extractor has no URL guard: an
entry whose URL tag is missing or empty is emitted with `url = ""`. -/
def parse_generic_feed (fetched : Fetched (List RawEntry))
    (parseDate : String → Option DateTime) (extract_full_content : Bool)
    (newspaper : String → Option NewsArticle) (toMd : String → String)
    (last_fetched : Option DateTime) (max_entries : Option Nat)
    (start_date end_date : Option DateTime) : List Entry :=
  match fetched with
  | .failure _ => []
  | .success items =>
    (takeMaxEntries max_entries items).filterMap (fun re =>
      let published :=
        if re.pub_raw ≠ "" then parseDate (pyStrip re.pub_raw) else none
      if dropByDates start_date end_date last_fetched published then none
      else
        let categories := re.categories.filter (fun t => t ≠ "")
        let content0 := if re.content = "" then re.description else re.content
        let authors := if re.author ≠ "" then [re.author] else []
        let eac := enrichContent extract_full_content newspaper re.url
          content0 authors []
        some { url := re.url
               title := re.title
               summary := re.description
               content := toMd eac.1
               authors := eac.2.1
               categories := categories
               meta_keywords := eac.2.2
               published := published })

/-- An element returned by a CSS selector in the HTML extractor:
`el.get("href")`, `el.get("content")` (absent attribute → `None`) and
`el.get_text(strip=True)`. -/
structure HtmlEl where
  href : Option String
  content_attr : Option String
  text : String
deriving DecidableEq, Repr

/-- Python's `a or b` for an optional attribute value: `None` and `""`
are falsy. -/
def pyOr (a : Option String) (b : String) : String :=
  match a with
  | some s => if s = "" then b else s
  | none => b

/-- One article block selected by `article_selector` in the HTML
extractor, with each configured per-field selector already resolved
against it: `select_one` yields `Option HtmlEl`, `select` a list. -/
structure HtmlBlock where
  url_el : Option HtmlEl
  title_el : Option HtmlEl
  desc_el : Option HtmlEl
  content_els : List HtmlEl
  author_el : Option HtmlEl
  published_el : Option HtmlEl
  category_els : List HtmlEl
deriving DecidableEq, Repr

/-- Which per-field selectors of the feed are configured (truthy): the
extractor only queries a selector guarded by `if <sel>:`. -/
structure HtmlSelectors where
  url_sel : Bool
  title_sel : Bool
  desc_sel : Bool
  content_sel : Bool
  author_sel : Bool
  published_sel : Bool
  categories_sel : Bool
deriving Repr

/-- The URL resolution of one HTML block:
`el.get("href") or el.get("content") or el.get_text(strip=True)`, `""`
when the selector is not configured or matches nothing. -/
def htmlUrlOf (sel : HtmlSelectors) (b : HtmlBlock) : String :=
  if sel.url_sel then
    match b.url_el with
    | some el => pyOr el.href (pyOr el.content_attr el.text)
    | none => ""
  else ""

/-- The published-date resolution of one HTML block: prefer the machine
attribute, fall back to text, parse with the configured format. -/
def htmlPublishedOf (sel : HtmlSelectors) (pd : String → Option DateTime)
    (b : HtmlBlock) : Option DateTime :=
  if sel.published_sel then
    match b.published_el with
    | some el =>
      let raw := pyOr el.content_attr el.text
      if raw ≠ "" then pd (pyStrip raw) else none
    | none => none
  else none

/-- `parse_html_feed` (`utils.py`).  `failure` is a fetch error; a
missing `article_selector` or an empty block list is `success []`.  A
block whose URL does not resolve (`if not url: continue`) is skipped
before anything else is extracted. -/
def parse_html_feed (fetched : Fetched (List HtmlBlock))
    (sel : HtmlSelectors) (parseDate : String → Option DateTime)
    (extract_full_content : Bool)
    (newspaper : String → Option NewsArticle) (toMd : String → String)
    (last_fetched : Option DateTime) (max_entries : Option Nat)
    (start_date end_date : Option DateTime) : List Entry :=
  match fetched with
  | .failure _ => []
  | .success blocks =>
    (takeMaxEntries max_entries blocks).filterMap (fun b =>
      let url := htmlUrlOf sel b
      if url = "" then none
      else
        let title :=
          if sel.title_sel then
            match b.title_el with
            | some el => pyOr el.content_attr el.text
            | none => ""
          else ""
        let description :=
          if sel.desc_sel then
            match b.desc_el with
            | some el => el.text
            | none => ""
          else ""
        let content :=
          if sel.content_sel then
            pyStrip (String.intercalate "\n"
              ((b.content_els.map (·.text)).filter (fun t => t ≠ "")))
          else ""
        let content := if content = "" then description else content
        let author :=
          if sel.author_sel then
            match b.author_el with
            | some el => pyOr el.content_attr el.text
            | none => ""
          else ""
        let authors := if author ≠ "" then [author] else []
        let categories :=
          if sel.categories_sel then
            (b.category_els.map (·.text)).filter (fun t => t ≠ "")
          else []
        let published := htmlPublishedOf sel parseDate b
        if dropByDates start_date end_date last_fetched published then none
        else
          let eac := enrichContent extract_full_content newspaper url
            content authors []
          let content2 := toMd eac.1
          let summary :=
            if description ≠ "" then description
            else pyTake content2 300 ++
              (if content2.length > 300 then "..." else "")
          some { url := url
                 title := title
                 summary := summary
                 content := content2
                 authors := eac.2.1
                 categories := categories
                 meta_keywords :=
                   (if eac.2.2 = [] then categories else eac.2.2)
                 published := published })

/-- A decoded JSON document (`response.json()`).  `jnull` doubles as
Python `None`, which is also what `dict.get` yields for a missing key. -/
inductive JVal where
  | jnull : JVal
  | jbool : Bool → JVal
  | jnum : Int → JVal
  | jstr : String → JVal
  | jarr : List JVal → JVal
  | jobj : List (String × JVal) → JVal

/-- Python truthiness of a decoded JSON value. -/
def jTruthy : JVal → Bool
  | .jnull => false
  | .jbool b => b
  | .jnum n => decide (n ≠ 0)
  | .jstr s => decide (s ≠ "")
  | .jarr xs => !xs.isEmpty
  | .jobj fs => !fs.isEmpty

/-- A single quote character, for Python `repr` output. -/
def pyQuote : String := String.singleton (Char.ofNat 39)

/-- Python's `repr` of a decoded JSON value (escape subtleties of string
quoting aside — the pipeline only stores this text opaquely). -/
def pyRepr : JVal → String
  | .jnull => "None"
  | .jbool b => if b then "True" else "False"
  | .jnum n => toString n
  | .jstr s => pyQuote ++ s ++ pyQuote
  | .jarr xs =>
    "[" ++ String.intercalate ", "
      (xs.attach.map (fun x => pyRepr x.1)) ++ "]"
  | .jobj fs =>
    "\x7b" ++ String.intercalate ", "
      (fs.attach.map (fun p => pyQuote ++ p.1.1 ++ pyQuote ++ ": " ++ pyRepr p.1.2))
      ++ "\x7d"
decreasing_by
  · simp only [JVal.jarr.sizeOf_spec]
    have := List.sizeOf_lt_of_mem x.2
    omega
  · simp only [JVal.jobj.sizeOf_spec]
    have h1 := List.sizeOf_lt_of_mem p.2
    obtain ⟨⟨a, b⟩, hb⟩ := p
    simp only [Prod.mk.sizeOf_spec] at h1 ⊢
    omega

/-- Python's `str(...)` of a decoded JSON value: the identity on strings,
`repr` otherwise. -/
def pyStr : JVal → String
  | .jstr s => s
  | v => pyRepr v

/-- `obj.get(key)` — `None` for a missing key or a non-dict receiver is
taken by the caller's loop. -/
def jGet (fs : List (String × JVal)) (k : String) : JVal :=
  ((fs.find? (fun p => p.1 = k)).map (·.2)).getD .jnull

/-- The inline dotted-path traversal repeated throughout
`parse_json_feed`: walk the keys; as soon as the current node is not a
dict the value becomes `None` (and stays `None`, since `None` is not a
dict). -/
def resolvePath (v : JVal) : List String → JVal
  | [] => v
  | k :: rest =>
    match v with
    | .jobj fs => resolvePath (jGet fs k) rest
    | _ => .jnull

/-- `field_map.get(name)` followed by `if <path>:` and `.split(".")`:
an absent or empty mapping is falsy, otherwise the dotted path splits on
every dot. -/
def pathOf : Option String → Option (List String)
  | some s => if s = "" then none else some (pySplit s (Char.ofNat 46))
  | none => none

/-- The `field_mapping` of a JSON feed's `api_config`: each value is the
configured dotted path, absent when not configured. -/
structure FieldMap where
  title : Option String
  url : Option String
  content : Option String
  summary : Option String
  author : Option String
  published_date : Option String
  categories : Option String
deriving Repr

/-- Resolve one mapped field of an entry: `""`-or-absent mapping leaves
the initial value `None`; otherwise the dotted traversal. -/
def resolveField (entry : JVal) (path : Option String) : JVal :=
  match pathOf path with
  | some p => resolvePath entry p
  | none => .jnull

/-- `len(x)` — defined for strings, lists and dicts; `TypeError`
(`Option.none`) otherwise. -/
def pyLen : JVal → Option Nat
  | .jstr s => some s.length
  | .jarr xs => some xs.length
  | .jobj fs => some fs.length
  | _ => none

/-- One output dict of `parse_json_feed`.  Unlike the other two
extractors it stores the resolved URL value raw (no `str(...)` around
it); the scalar fields go through `str(x).strip()`. -/
structure JsonOut where
  url : JVal
  title : String
  summary : String
  content : String
  authors : List String
  categories : List String
  meta_keywords : List String
  published : Option DateTime

/-- The category normalization of `parse_json_feed`: a truthy list keeps
its truthy elements stringified and trimmed; a string with commas splits
on them keeping non-empty trims; any other single string is a singleton;
any other truthy value yields `[]`. -/
def jsonCategories (v : JVal) : List String :=
  if jTruthy v then
    match v with
    | .jarr xs => (xs.filter jTruthy).map (fun x => pyStrip (pyStr x))
    | .jstr s =>
      if s.data.contains (Char.ofNat 44) then
        ((pySplit s (Char.ofNat 44)).map (fun c => pyStrip c)).filter
          (fun c => c ≠ "")
      else [pyStrip s]
    | _ => []
  else []

/-- The per-entry body of `parse_json_feed`: resolve each mapped field,
skip the entry when the URL is falsy, apply the shared date filters, and
normalize.  `Option.none` is a per-entry exception (`len()` or `+` on an
unsliceable value while defaulting `summary`), which the entry-level
`except` turns into a skip. -/
def jsonEntryOut (fm : FieldMap) (parseDate : String → Option DateTime)
    (last_fetched : Option DateTime) (start_date end_date : Option DateTime)
    (entry : JVal) : Option (Option JsonOut) := do
  let titleRaw := resolveField entry fm.title
  let titleV := if jTruthy titleRaw then titleRaw else .jstr ""
  let urlV := resolveField entry fm.url
  let contentRaw := resolveField entry fm.content
  let contentV := if jTruthy contentRaw then contentRaw else .jstr ""
  let summaryRaw := resolveField entry fm.summary
  let summaryV := if jTruthy summaryRaw then summaryRaw else .jstr ""
  let summaryV ← (do
    if jTruthy summaryV then pure summaryV
    else do
      let n ← pyLen contentV
      if n > 300 then
        match contentV with
        | .jstr s => pure (JVal.jstr (pyTake s 300 ++ "..."))
        | _ => none
      else pure contentV)
  let authorRaw := resolveField entry fm.author
  let authorV := if jTruthy authorRaw then authorRaw else .jstr ""
  let pubRaw := resolveField entry fm.published_date
  let published : Option DateTime :=
    match pubRaw with
    | .jstr s => parseDate s
    | _ => none
  let categories := jsonCategories (resolveField entry fm.categories)
  if ¬ jTruthy urlV then pure none
  else if dropByDates start_date end_date last_fetched published then
    pure none
  else
    pure (some
      { url := urlV
        title := pyStrip (pyStr titleV)
        summary := pyStrip (pyStr summaryV)
        content := pyStrip (pyStr contentV)
        authors := if jTruthy authorV then [pyStrip (pyStr authorV)] else []
        categories := categories
        meta_keywords := categories
        published := published })

/-- `parse_json_feed` (`utils.py`).  A fetch/decode failure returns
`.ok []`; `data.get(items_path)` on a non-dict document raises
(`.error`); a missing or non-list items node returns `.ok []`.  A
per-entry exception skips just that entry. -/
def parse_json_feed (fetched : Fetched JVal) (fm : FieldMap)
    (items_path : String) (parseDate : String → Option DateTime)
    (last_fetched : Option DateTime) (max_entries : Option Nat)
    (start_date end_date : Option DateTime) :
    Except String (List JsonOut) :=
  match fetched with
  | .failure _ => .ok []
  | .success data =>
    let items : Except String JVal :=
      if items_path.data.contains (Char.ofNat 46) then
        .ok (resolvePath data (pySplit items_path (Char.ofNat 46)))
      else
        match data with
        | .jobj fs => .ok (jGet fs items_path)
        | _ => .error "AttributeError: get on a non-dict document"
    match items with
    | .error msg => .error msg
    | .ok itemsV =>
      match itemsV with
      | .jarr xs =>
        .ok ((takeMaxEntries max_entries xs).filterMap (fun entry =>
          match jsonEntryOut fm parseDate last_fetched start_date
              end_date entry with
          | none => none
          | some out => out))
      | _ => .ok []

/-- A `Feed` row as the scheduler reads it: the primary key and the
nullable `next_fetch` column (`models.py`). -/
structure FeedRow where
  id : Nat
  next_fetch : Option DateTime
deriving DecidableEq, Repr

/-- Modelled from the spec: `Feed.should_fetch` is called from
`tasks.py` (lines 18, 66 and 96) but defined nowhere under the sources
(`models.py` has no such method).  Per the spec, a feed transitions to
`Due` when `now ≥ next_fetch`, or when `next_fetch` is unset, meaning
never fetched. -/
def should_fetch (now : DateTime) (f : FeedRow) : Bool :=
  match f.next_fetch with
  | none => true
  | some t => decide (now ≥ t)

/-- Structural worker for `sliceBatches`: the fuel only bounds the
number of slices and never runs out when it starts at the list's
length. -/
def sliceBatchesGo (bsPred : Nat) : Nat → List Nat → List (List Nat)
  | _, [] => []
  | 0, _ :: _ => []
  | fuel + 1, x :: rest =>
    (x :: rest).take (bsPred + 1) ::
      sliceBatchesGo bsPred fuel ((x :: rest).drop (bsPred + 1))

/-- The Python slicing loop
`[feed_ids[i:i + batch_size] for i in range(0, total_feeds, batch_size)]`
for a positive step `bsPred + 1`. -/
def sliceBatches (bsPred : Nat) (l : List Nat) : List (List Nat) :=
  sliceBatchesGo bsPred l.length l

/-- `fetch_feeds_in_batches` (`tasks.py` lines 88–122), reduced to which
feed ids it dispatches and in which batches: filter the due feeds, return
early (dispatching nothing) when none are due, then slice the id list
into `batch_size`-sized chunks, each dispatched as one group.
`Option.none` models `range(0, n, 0)` raising `ValueError` when
`batch_size = 0` (the default is 100 and the beat schedule passes 10). -/
def fetch_feeds_in_batches (now : DateTime) (batch_size : Nat)
    (feeds : List FeedRow) : Option (List (List Nat)) :=
  let feed_ids := (feeds.filter (should_fetch now)).map (·.id)
  if feed_ids.length = 0 then some []
  else
    match batch_size with
    | 0 => none
    | bsPred + 1 => some (sliceBatches bsPred feed_ids)

/-! ## Basic facts about `has_changed` and the field loop -/

theorem has_changed_str (s t : String) :
    has_changed (.vStr s) (.vStr t) =
      some (decide ¬(pyStrip s = pyStrip t)) :=
  rfl

theorem has_changed_list (l l2 : List String) :
    has_changed (.vList l) (.vList l2) = some (decide ¬(l = l2)) :=
  rfl

theorem has_changed_dt (o n : DateTime) :
    has_changed (.vDT o) (.vDT n) = some (decide (o < n)) :=
  rfl

theorem has_changed_none_none :
    has_changed PyVal.vNone PyVal.vNone = some false := by
  simp [has_changed, pyOrEmptyStrip]

theorem has_changed_dt_none (t : DateTime) :
    has_changed (.vDT t) PyVal.vNone = none :=
  rfl

theorem has_changed_none_dt (t : DateTime) :
    has_changed PyVal.vNone (.vDT t) = none :=
  rfl

/-- The first five iterations of the field loop (the string and list
fields), written directly: used to factor proofs about
`updateFromEntry`. -/
def textListPass (a : Article) (e : Entry) : Article × Bool :=
  let c1 := decide ¬(pyStrip a.title = pyStrip e.title)
  let a := if c1 then { a with title := e.title } else a
  let c2 := decide ¬(pyStrip a.content = pyStrip e.content)
  let a := if c2 then { a with content := e.content } else a
  let c3 := decide ¬(a.authors = e.authors)
  let a := if c3 then { a with authors := e.authors } else a
  let c4 := decide ¬(a.categories = e.categories)
  let a := if c4 then { a with categories := e.categories } else a
  let c5 := decide ¬(a.meta_keywords = e.meta_keywords)
  let a := if c5 then { a with meta_keywords := e.meta_keywords } else a
  (a, c1 || c2 || c3 || c4 || c5)

theorem textListPass_spec (a : Article) (e : Entry) :
    pyStrip (textListPass a e).1.title = pyStrip e.title ∧
    pyStrip (textListPass a e).1.content = pyStrip e.content ∧
    (textListPass a e).1.authors = e.authors ∧
    (textListPass a e).1.categories = e.categories ∧
    (textListPass a e).1.meta_keywords = e.meta_keywords ∧
    (textListPass a e).1.published_at = a.published_at ∧
    (textListPass a e).1.url = a.url := by
  simp only [textListPass]
  split_ifs <;> simp_all

/-- `updateFromEntry` unfolded: the five total string/list comparisons,
then the `published_at` comparison, which alone can raise. -/
theorem updateFromEntry_eq (a : Article) (e : Entry) :
    updateFromEntry a e =
      match has_changed (pubVal a.published_at) (pubVal e.published) with
      | none => none
      | some c6 =>
        some ((if c6 then { (textListPass a e).1 with
                  published_at := e.published }
               else (textListPass a e).1),
              (textListPass a e).2 || c6) := by
  cases hn : e.published <;> cases ho : a.published_at <;>
    simp only [updateFromEntry, textListPass, Option.bind_eq_bind,
      Option.some_bind, Option.none_bind, has_changed_str, has_changed_list,
      apply_ite Article.published_at, pubVal, ho, hn, has_changed_none_none,
      has_changed_dt, has_changed_dt_none, has_changed_none_dt, ite_self] <;>
    rfl

/-- The monotone-update relation on stored `published_at` values: either
untouched, or strictly advanced from one present instant to a later
one. -/
def pubMono (o n : Option DateTime) : Prop :=
  n = o ∨ ∃ p q, o = some p ∧ n = some q ∧ p < q

theorem pubMono_refl (o : Option DateTime) : pubMono o o := Or.inl rfl

theorem pubMono_trans {o m n : Option DateTime} (h1 : pubMono o m)
    (h2 : pubMono m n) : pubMono o n := by
  rcases h1 with h1 | ⟨p, q, hp, hq, hlt⟩
  · rcases h2 with h2 | ⟨p, q, hp, hq, hlt⟩
    · exact Or.inl (h2.trans h1)
    · exact Or.inr ⟨p, q, h1 ▸ hp, hq, hlt⟩
  · rcases h2 with h2 | ⟨p2, q2, hp2, hq2, hlt2⟩
    · exact Or.inr ⟨p, q, hp, h2 ▸ hq, hlt⟩
    · refine Or.inr ⟨p, q2, hp, hq2, ?_⟩
      rw [hq] at hp2
      rw [Option.some.inj hp2] at hlt
      exact lt_trans hlt hlt2

/-- `published_at` is written by the field loop only when both the stored
and the incoming value are present and the incoming one is strictly
later; otherwise (when the loop returns at all) it is untouched. -/
theorem updateFromEntry_pub (a : Article) (e : Entry) (a2 : Article)
    (c : Bool) (h : updateFromEntry a e = some (a2, c)) :
    a2.published_at = a.published_at ∨
      ∃ p q, a.published_at = some p ∧ e.published = some q ∧ p < q ∧
        a2.published_at = some q := by
  rw [updateFromEntry_eq] at h
  have hpub := (textListPass_spec a e).2.2.2.2.2.1
  rcases ho : a.published_at with _ | p <;> rcases hn : e.published with _ | q <;>
    rw [ho, hn] at h <;>
    simp only [pubVal, has_changed_none_none, has_changed_dt,
      has_changed_dt_none, has_changed_none_dt] at h
  · simp only [Bool.false_eq_true, if_false, Option.some.injEq,
      Prod.mk.injEq] at h
    left
    rw [← h.1, hpub, ho]
  · exact absurd h (by simp)
  · exact absurd h (by simp)
  · by_cases hc : p < q
    · right
      refine ⟨p, q, rfl, rfl, hc, ?_⟩
      rw [if_pos (by simpa using hc)] at h
      simp only [Option.some.injEq, Prod.mk.injEq] at h
      rw [← h.1]
    · left
      rw [if_neg (by simpa using hc)] at h
      simp only [Option.some.injEq, Prod.mk.injEq] at h
      rw [← h.1, hpub, ho]

theorem updateFromEntry_url (a : Article) (e : Entry) (a2 : Article)
    (c : Bool) (h : updateFromEntry a e = some (a2, c)) : a2.url = a.url := by
  rw [updateFromEntry_eq] at h
  rcases hhc : has_changed (pubVal a.published_at) (pubVal e.published)
    with _ | c6
  · rw [hhc] at h
    exact absurd h (by simp)
  · rw [hhc] at h
    obtain ⟨ha2, -⟩ := Prod.mk.injEq .. ▸ Option.some.injEq .. ▸ h
    have hu := (textListPass_spec a e).2.2.2.2.2.2
    cases c6 <;> simp only [if_true, if_false, Bool.false_eq_true] at ha2 <;>
      rw [← ha2] <;> simp [hu]

/-- An article already carries an entry's values, up to the trims the
comparison itself applies: exactly the state in which the field loop
reports no change on the five string/list fields. -/
def entryApplied (a : Article) (e : Entry) : Prop :=
  pyStrip a.title = pyStrip e.title ∧ pyStrip a.content = pyStrip e.content ∧
  a.authors = e.authors ∧ a.categories = e.categories ∧
  a.meta_keywords = e.meta_keywords

theorem textListPass_applied (a : Article) (e : Entry) :
    entryApplied (textListPass a e).1 e :=
  ⟨(textListPass_spec a e).1, (textListPass_spec a e).2.1,
    (textListPass_spec a e).2.2.1, (textListPass_spec a e).2.2.2.1,
    (textListPass_spec a e).2.2.2.2.1⟩

theorem textListPass_of_applied (a : Article) (e : Entry)
    (h : entryApplied a e) : textListPass a e = (a, false) := by
  obtain ⟨h1, h2, h3, h4, h5⟩ := h
  simp [textListPass, h1, h2, h3, h4, h5]

/-- `entryApplied` only inspects the five compared fields, so writing
`published_at` preserves it. -/
theorem entryApplied_pub (a : Article) (e : Entry) (x : Option DateTime)
    (h : entryApplied a e) :
    entryApplied { a with published_at := x } e := by
  dsimp only [entryApplied] at h ⊢
  exact h

/-- Running the field loop a second time against the same entry reports
no change and leaves the article as it was: one successful pass
stabilizes the article for that entry. -/
theorem updateFromEntry_stable (a : Article) (e : Entry) (a1 : Article)
    (ch : Bool) (h : updateFromEntry a e = some (a1, ch)) :
    updateFromEntry a1 e = some (a1, false) := by
  rw [updateFromEntry_eq] at h
  have happ := textListPass_applied a e
  have hpub := (textListPass_spec a e).2.2.2.2.2.1
  rcases ho : a.published_at with _ | p <;> rcases hn : e.published with _ | q <;>
    rw [ho, hn] at h <;>
    simp only [pubVal, has_changed_none_none, has_changed_dt,
      has_changed_dt_none, has_changed_none_dt] at h
  · simp only [Bool.false_eq_true, if_false, Option.some.injEq,
      Prod.mk.injEq] at h
    rw [updateFromEntry_eq,
      textListPass_of_applied a1 e (h.1 ▸ happ)]
    have h1pub : a1.published_at = none := by rw [← h.1, hpub, ho]
    simp [pubVal, h1pub, hn, has_changed_none_none]
  · exact absurd h (by simp)
  · exact absurd h (by simp)
  · by_cases hc : p < q
    · rw [if_pos (by simpa using hc)] at h
      simp only [Option.some.injEq, Prod.mk.injEq] at h
      have happ1 : entryApplied a1 e :=
        h.1 ▸ entryApplied_pub _ _ _ happ
      rw [updateFromEntry_eq, textListPass_of_applied a1 e happ1]
      have h1pub : a1.published_at = some q := by rw [← h.1]
      simp [pubVal, h1pub, hn, has_changed_dt]
    · rw [if_neg (by simpa using hc)] at h
      simp only [Option.some.injEq, Prod.mk.injEq] at h
      rw [updateFromEntry_eq, textListPass_of_applied a1 e (h.1 ▸ happ)]
      have h1pub : a1.published_at = some p := by rw [← h.1, hpub, ho]
      simp [pubVal, h1pub, hn, has_changed_dt, hc]

/-- A freshly inserted row already carries its entry's values: the field
loop reports no change on it. -/
theorem updateFromEntry_fresh (e : Entry) :
    updateFromEntry (entryToArticle e) e = some (entryToArticle e, false) := by
  have happ : entryApplied (entryToArticle e) e := by
    simp [entryApplied, entryToArticle]
  rw [updateFromEntry_eq, textListPass_of_applied _ e happ]
  cases hn : e.published <;>
    simp [pubVal, entryToArticle, hn, has_changed_none_none, has_changed_dt]

/-! ## The URL-keyed map and the bulk insert -/

/-- The database invariant backing `URLField(unique=True)`: no two rows
share a URL. -/
def urlsUnique (db : List Article) : Prop :=
  (db.map (·.url)).Nodup

theorem mapGet_cons (q : String × Article) (l : List (String × Article))
    (k : String) :
    mapGet (q :: l) k = if q.1 = k then some q.2 else mapGet l k := by
  by_cases h : q.1 = k <;> simp [mapGet, List.find?_cons, h]

theorem mapGet_nil (k : String) : mapGet [] k = none := rfl

theorem mapGet_overwrite_ne (m : List (String × Article)) (k k2 : String)
    (v : Article) (hne : k2 ≠ k) :
    mapGet (m.map (fun p => if p.1 = k then (k, v) else p)) k2 =
      mapGet m k2 := by
  induction m with
  | nil => rfl
  | cons q m ih =>
    by_cases hq : q.1 = k
    · rw [List.map_cons, if_pos hq, mapGet_cons, mapGet_cons,
        if_neg (show ¬(k, v).1 = k2 from fun h => hne h.symm),
        if_neg (show ¬q.1 = k2 from hq ▸ fun h => hne h.symm)]
      exact ih
    · rw [List.map_cons, if_neg hq, mapGet_cons, mapGet_cons]
      by_cases hq2 : q.1 = k2 <;> simp [hq2, ih]

theorem mapGet_overwrite_self (m : List (String × Article)) (k : String)
    (v : Article) (h : ∃ p ∈ m, p.1 = k) :
    mapGet (m.map (fun p => if p.1 = k then (k, v) else p)) k = some v := by
  induction m with
  | nil => simp at h
  | cons q m ih =>
    by_cases hq : q.1 = k
    · rw [List.map_cons, if_pos hq, mapGet_cons, if_pos rfl]
    · rw [List.map_cons, if_neg hq, mapGet_cons, if_neg hq]
      refine ih ?_
      obtain ⟨p, hmem, hpk⟩ := h
      rcases List.mem_cons.mp hmem with hpq | hp2
      · exact absurd (hpq ▸ hpk) hq
      · exact ⟨p, hp2, hpk⟩

theorem mapGet_append_single (m : List (String × Article)) (k k2 : String)
    (v : Article) :
    mapGet (m ++ [(k, v)]) k2 =
      if mapGet m k2 = none then (if k = k2 then some v else none)
      else mapGet m k2 := by
  induction m with
  | nil =>
    rw [List.nil_append, mapGet_cons, mapGet_nil]
    simp
  | cons q m ih =>
    rw [List.cons_append, mapGet_cons, mapGet_cons]
    by_cases hq : q.1 = k2 <;> simp [hq, ih]

theorem mapGet_mapInsert_self (m : List (String × Article)) (k : String)
    (v : Article) : mapGet (mapInsert m k v) k = some v := by
  simp only [mapInsert]
  split_ifs with hany
  · refine mapGet_overwrite_self m k v ?_
    simpa using hany
  · have hnone : mapGet m k = none := by
      cases hcase : mapGet m k with
      | none => rfl
      | some b =>
        exfalso
        obtain ⟨a1, hfind⟩ : ∃ a1,
            List.find? (fun p => decide (p.1 = k)) m = some (a1, b) := by
          simpa [mapGet] using hcase
        exact hany (by
          simp only [List.any_eq_true]
          refine ⟨(a1, b), List.mem_of_find?_eq_some hfind, ?_⟩
          have := List.find?_some (p := fun x : String × Article => decide (x.1 = k)) hfind
          simpa using this)
    rw [mapGet_append_single, if_pos hnone, if_pos rfl]

theorem mapGet_mapInsert_ne (m : List (String × Article)) (k k2 : String)
    (v : Article) (hne : k2 ≠ k) :
    mapGet (mapInsert m k v) k2 = mapGet m k2 := by
  simp only [mapInsert]
  split_ifs with hany
  · exact mapGet_overwrite_ne m k k2 v hne
  · rw [mapGet_append_single]
    split_ifs with h1 h2
    · exact absurd h2 (fun h => hne h.symm)
    · exact h1.symm
    · rfl

/-- The built map realizes "last binding wins": the lookup returns the
last row with the key's URL, falling back to the initial accumulator. -/
theorem mapGet_buildMap_go (l : List Article) (m : List (String × Article))
    (k : String) :
    mapGet (l.foldl (fun m a => mapInsert m a.url a) m) k =
      match l.reverse.find? (fun a => a.url = k) with
      | some a => some a
      | none => mapGet m k := by
  induction l generalizing m with
  | nil => rfl
  | cons x l ih =>
    rw [List.foldl_cons, ih, List.reverse_cons, List.find?_append]
    cases hfind : l.reverse.find? (fun a => decide (a.url = k)) with
    | some a => simp [hfind, Option.or]
    | none =>
      simp only [hfind, Option.or]
      by_cases hx : x.url = k
      · subst hx
        simp [List.find?_cons, mapGet_mapInsert_self]
      · rw [List.find?_cons]
        rw [show (decide (x.url = k)) = false by simpa using hx]
        rw [mapGet_mapInsert_ne _ _ _ _ (fun h => hx h.symm)]
        simp

theorem mapGet_buildMap (l : List Article) (k : String) :
    mapGet (buildMap l) k =
      match l.reverse.find? (fun a => a.url = k) with
      | some a => some a
      | none => none := by
  rw [buildMap, mapGet_buildMap_go]
  cases l.reverse.find? (fun a => a.url = k) <;> rfl

theorem mapGet_buildMap_mem (l : List Article) (k : String) (a : Article)
    (h : mapGet (buildMap l) k = some a) : a ∈ l ∧ a.url = k := by
  rw [mapGet_buildMap] at h
  cases hfind : l.reverse.find? (fun a => a.url = k) with
  | none => rw [hfind] at h; cases h
  | some b =>
    rw [hfind] at h
    obtain rfl : b = a := Option.some.inj h
    refine ⟨List.mem_reverse.mp (List.mem_of_find?_eq_some hfind), ?_⟩
    have := List.find?_some
      (p := fun x : Article => decide (x.url = k)) hfind
    simpa using this

theorem mapGet_buildMap_isSome (l : List Article) (k : String)
    (h : ∃ a ∈ l, a.url = k) : (mapGet (buildMap l) k).isSome = true := by
  rw [mapGet_buildMap]
  have : (l.reverse.find? (fun a => a.url = k)).isSome = true := by
    rw [List.find?_isSome]
    obtain ⟨a, ha, hk⟩ := h
    exact ⟨a, List.mem_reverse.mpr ha, by simpa using hk⟩
  cases hfind : l.reverse.find? (fun a => a.url = k) with
  | none => rw [hfind] at this; cases this
  | some b => rfl

/-- With pairwise-distinct URLs, `find?` by URL returns the row itself. -/
theorem find?_url_nodup (l : List Article) (a : Article)
    (hU : (l.map (·.url)).Nodup) (ha : a ∈ l) :
    l.find? (fun x => x.url = a.url) = some a := by
  induction l with
  | nil => cases ha
  | cons x l ih =>
    rcases List.mem_cons.mp ha with rfl | ha2
    · simp [List.find?_cons]
    · have hx : ¬ x.url = a.url := by
        intro hk
        have : a.url ∈ l.map (·.url) := List.mem_map_of_mem _ ha2
        rw [List.map_cons, List.nodup_cons] at hU
        exact hU.1 (hk ▸ this)
      rw [List.find?_cons]
      rw [show (decide (x.url = a.url)) = false by simpa using hx]
      exact ih (by
        rw [List.map_cons, List.nodup_cons] at hU
        exact hU.2) ha2

/-- With pairwise-distinct URLs the built map is exactly row lookup. -/
theorem mapGet_buildMap_unique (l : List Article) (a : Article)
    (hU : (l.map (·.url)).Nodup) (ha : a ∈ l) :
    mapGet (buildMap l) a.url = some a := by
  rw [mapGet_buildMap]
  have hrev : (l.reverse.map (·.url)).Nodup := by
    rw [List.map_reverse, List.nodup_reverse]
    exact hU
  rw [find?_url_nodup l.reverse a hrev (List.mem_reverse.mpr ha)]

/-- The ignore-on-conflict bulk insert only appends, and every appended
row comes from the batch and carries a URL that was not yet stored. -/
theorem bulkCreate_extends (objs db : List Article) :
    ∃ extra, bulkCreateIgnoreConflicts db objs = db ++ extra ∧
      ∀ x ∈ extra, x ∈ objs ∧ x.url ∉ db.map (·.url) := by
  induction objs generalizing db with
  | nil => exact ⟨[], by simp [bulkCreateIgnoreConflicts], by simp⟩
  | cons o objs ih =>
    by_cases hconf : db.any (fun a => a.url = o.url)
    · obtain ⟨extra, heq, hprop⟩ := ih db
      refine ⟨extra, ?_, ?_⟩
      · rw [bulkCreateIgnoreConflicts, List.foldl_cons, if_pos hconf]
        exact heq
      · intro x hx
        exact ⟨List.mem_cons_of_mem _ (hprop x hx).1, (hprop x hx).2⟩
    · obtain ⟨extra, heq, hprop⟩ := ih (db ++ [o])
      refine ⟨o :: extra, ?_, ?_⟩
      · rw [bulkCreateIgnoreConflicts, List.foldl_cons, if_neg hconf]
        rw [bulkCreateIgnoreConflicts] at heq
        rw [heq]
        simp
      · intro x hx
        rcases List.mem_cons.mp hx with rfl | hx2
        · refine ⟨List.mem_cons_self _ _, ?_⟩
          intro hmem
          obtain ⟨a, ha, hak⟩ := List.mem_map.mp hmem
          exact hconf (by
            simp only [List.any_eq_true]
            exact ⟨a, ha, by simpa using hak⟩)
        · obtain ⟨hmem, hurl⟩ := hprop x hx2
          refine ⟨List.mem_cons_of_mem _ hmem, ?_⟩
          intro hdb
          exact hurl (by
            rw [List.map_append]
            exact List.mem_append_left _ hdb)

/-- The ignore-on-conflict bulk insert preserves URL uniqueness. -/
theorem bulkCreate_urlsUnique (objs db : List Article)
    (hU : urlsUnique db) : urlsUnique (bulkCreateIgnoreConflicts db objs) := by
  induction objs generalizing db with
  | nil => exact hU
  | cons o objs ih =>
    by_cases hconf : db.any (fun a => a.url = o.url)
    · rw [bulkCreateIgnoreConflicts, List.foldl_cons, if_pos hconf]
      exact ih db hU
    · rw [bulkCreateIgnoreConflicts, List.foldl_cons, if_neg hconf]
      refine ih (db ++ [o]) ?_
      rw [urlsUnique, List.map_append]
      rw [List.nodup_append]
      refine ⟨hU, List.nodup_singleton _, ?_⟩
      intro u hu hmem
      simp only [List.map_cons, List.map_nil, List.mem_singleton] at hmem
      obtain ⟨a, ha, hak⟩ := List.mem_map.mp hu
      exact hconf (by
        simp only [List.any_eq_true]
        exact ⟨a, ha, by simp [hak, hmem]⟩)

theorem updateFromEntry_pubMono (a : Article) (e : Entry) (a2 : Article)
    (c : Bool) (h : updateFromEntry a e = some (a2, c)) :
    pubMono a.published_at a2.published_at := by
  rcases updateFromEntry_pub a e a2 c h with h1 | ⟨p, q, hp, _, hlt, ha2⟩
  · exact Or.inl h1
  · exact Or.inr ⟨p, q, hp, ha2, hlt⟩

theorem textListPass_snd_false (a : Article) (e : Entry)
    (h : (textListPass a e).2 = false) : (textListPass a e).1 = a := by
  simp only [textListPass, Bool.or_eq_false_iff] at h
  obtain ⟨⟨⟨⟨h1, h2⟩, h3⟩, h4⟩, h5⟩ := h
  simp only [textListPass, h1, Bool.false_eq_true, if_false] at h2 h3 h4 h5 ⊢
  simp only [h2, Bool.false_eq_true, if_false] at h3 h4 h5 ⊢
  simp only [h3, Bool.false_eq_true, if_false] at h4 h5 ⊢
  simp only [h4, Bool.false_eq_true, if_false] at h5 ⊢
  simp only [h5, Bool.false_eq_true, if_false]

/-- A field-loop pass that reports no change leaves the article
untouched (it performed no `setattr`). -/
theorem updateFromEntry_false (a : Article) (e : Entry) (a1 : Article)
    (h : updateFromEntry a e = some (a1, false)) : a1 = a := by
  rw [updateFromEntry_eq] at h
  cases hhc : has_changed (pubVal a.published_at) (pubVal e.published) with
  | none => rw [hhc] at h; cases h
  | some c6 =>
    rw [hhc] at h
    simp only [Option.some.injEq, Prod.mk.injEq] at h
    obtain ⟨ha1, hch⟩ := h
    rw [Bool.or_eq_false_iff] at hch
    rw [← ha1, hch.2]
    simp only [Bool.false_eq_true, if_false]
    exact textListPass_snd_false a e hch.1

theorem updateLoop_nil (m : List (String × Article)) (upd : List String) :
    updateLoop [] m upd = some (m, upd) := rfl

theorem updateLoop_cons (e : Entry) (rest : List Entry)
    (m : List (String × Article)) (upd : List String) :
    updateLoop (e :: rest) m upd =
      (match mapGet m e.url with
      | none => updateLoop rest m upd
      | some article =>
        match updateFromEntry article e with
        | none => none
        | some (a2, changed) =>
          if changed then
            updateLoop rest (mapInsert m e.url a2) (upd ++ [e.url])
          else updateLoop rest m upd) := rfl

/-- Every binding of the map after the update loop descends from a
binding of the map before it by field-loop passes: the URL key is stable
and `published_at` evolves monotonically. -/
theorem updateLoop_mono (es : List Entry) (m : List (String × Article))
    (upd : List String) (mF : List (String × Article)) (updF : List String)
    (h : updateLoop es m upd = some (mF, updF)) (k : String) (a2 : Article)
    (hget : mapGet mF k = some a2) :
    ∃ a1, mapGet m k = some a1 ∧ pubMono a1.published_at a2.published_at ∧
      a2.url = a1.url := by
  induction es generalizing m upd with
  | nil =>
    rw [updateLoop_nil] at h
    simp only [Option.some.injEq, Prod.mk.injEq] at h
    obtain ⟨rfl, -⟩ := h
    exact ⟨a2, hget, pubMono_refl _, rfl⟩
  | cons e rest ih =>
    rw [updateLoop_cons] at h
    split at h
    · exact ih _ _ h
    · rename_i article hm
      split at h
      · exact absurd h (by simp)
      · rename_i a2' ch hupd
        split at h
        · rename_i hch
          obtain ⟨a1', hget1, hmono1, hurl1⟩ := ih _ _ h
          by_cases hk : k = e.url
          · subst hk
            rw [mapGet_mapInsert_self] at hget1
            obtain rfl : a2' = a1' := Option.some.inj hget1
            refine ⟨article, hm, ?_, ?_⟩
            · exact pubMono_trans
                (updateFromEntry_pubMono article e a2' ch hupd) hmono1
            · rw [hurl1, updateFromEntry_url article e a2' ch hupd]
          · rw [mapGet_mapInsert_ne _ _ _ _ hk] at hget1
            exact ⟨a1', hget1, hmono1, hurl1⟩
        · exact ih _ _ h

/-- The update loop leaves keys it never visits untouched, in the map and
in the `updated_articles` list alike. -/
theorem updateLoop_untouched (es : List Entry)
    (m : List (String × Article)) (upd : List String)
    (mF : List (String × Article)) (updF : List String)
    (h : updateLoop es m upd = some (mF, updF)) (k : String)
    (hk : ∀ e ∈ es, e.url ≠ k) :
    mapGet mF k = mapGet m k ∧ (k ∈ updF ↔ k ∈ upd) := by
  induction es generalizing m upd with
  | nil =>
    rw [updateLoop_nil] at h
    simp only [Option.some.injEq, Prod.mk.injEq] at h
    rw [h.1, h.2]
    exact ⟨rfl, Iff.rfl⟩
  | cons e rest ih =>
    have hke : e.url ≠ k := hk e (List.mem_cons_self _ _)
    have hkr : ∀ e2 ∈ rest, e2.url ≠ k :=
      fun e2 he2 => hk e2 (List.mem_cons_of_mem _ he2)
    rw [updateLoop_cons] at h
    split at h
    · exact ih _ _ h hkr
    · rename_i article hm
      split at h
      · exact absurd h (by simp)
      · rename_i a2' ch hupd
        split at h
        · obtain ⟨hmap, hmem⟩ := ih _ _ h hkr
          refine ⟨?_, ?_⟩
          · rw [hmap, mapGet_mapInsert_ne _ _ _ _ (fun hek => hke hek.symm)]
          · rw [hmem]
            simp only [List.mem_append, List.mem_singleton]
            constructor
            · rintro (hk2 | hk2)
              · exact hk2
              · exact absurd hk2.symm hke
            · exact Or.inl
        · exact ih _ _ h hkr

/-- With pairwise-distinct entry URLs, each entry's stored article is
passed through the field loop exactly once: the final map holds the
once-updated article, and the entry's URL lands in `updated_articles`
exactly when that single pass reported a change. -/
theorem updateLoop_track (es : List Entry) (m : List (String × Article))
    (upd : List String) (mF : List (String × Article)) (updF : List String)
    (h : updateLoop es m upd = some (mF, updF)) (e : Entry) (he : e ∈ es)
    (hnd : (es.map (·.url)).Nodup) (a0 : Article)
    (hm : mapGet m e.url = some a0) :
    ∃ a1 ch, updateFromEntry a0 e = some (a1, ch) ∧
      mapGet mF e.url = some a1 ∧
      (e.url ∈ updF ↔ (e.url ∈ upd ∨ ch = true)) := by
  induction es generalizing m upd with
  | nil => cases he
  | cons e2 rest ih =>
    rw [List.map_cons, List.nodup_cons] at hnd
    rcases List.mem_cons.mp he with rfl | herest
    · have hrest : ∀ e3 ∈ rest, e3.url ≠ e.url := by
        intro e3 he3 hk
        exact hnd.1 (hk ▸ List.mem_map_of_mem _ he3)
      rw [updateLoop_cons] at h
      split at h
      · rename_i hnone
        rw [hm] at hnone
        cases hnone
      · rename_i article hmm
        rw [hm] at hmm
        have heq : article = a0 := (Option.some.inj hmm).symm
        subst heq
        split at h
        · exact absurd h (by simp)
        · rename_i a1 ch hupd
          split at h
          · rename_i hch
            obtain ⟨hmap, hmem⟩ := updateLoop_untouched rest _ _ _ _ h
              e.url hrest
            refine ⟨a1, ch, hupd, ?_, ?_⟩
            · rw [hmap, mapGet_mapInsert_self]
            · rw [hmem]
              simp [hch]
          · rename_i hch
            obtain ⟨hmap, hmem⟩ := updateLoop_untouched rest _ _ _ _ h
              e.url hrest
            have hch0 : ch = false := by
              cases ch
              · rfl
              · exact absurd rfl hch
            subst hch0
            have hfa := updateFromEntry_false _ _ _ hupd
            subst hfa
            exact ⟨_, false, hupd, by rw [hmap, hm], by rw [hmem]; simp⟩
    · have hne2 : e2.url ≠ e.url := by
        intro hk
        exact hnd.1 (hk ▸ List.mem_map_of_mem _ herest)
      rw [updateLoop_cons] at h
      split at h
      · exact ih _ _ h herest hnd.2 hm
      · rename_i article hmm
        split at h
        · exact absurd h (by simp)
        · rename_i a2' ch2 hupd2
          split at h
          · obtain ⟨a1, ch, hupd, hmap, hmem⟩ := ih _ _ h herest hnd.2
              (by rw [mapGet_mapInsert_ne _ _ _ _ (Ne.symm hne2)]; exact hm)
            refine ⟨a1, ch, hupd, hmap, ?_⟩
            rw [hmem]
            simp [List.mem_append, Ne.symm hne2, hne2]
          · exact ih _ _ h herest hnd.2 hm


theorem urlsUnique_eq_of_mem (db : List Article) (hU : urlsUnique db)
    (a a2 : Article) (ha : a ∈ db) (ha2 : a2 ∈ db) (hurl : a2.url = a.url) :
    a2 = a := by
  induction db with
  | nil => cases ha
  | cons x rest ih =>
    rw [urlsUnique, List.map_cons, List.nodup_cons] at hU
    rcases List.mem_cons.mp ha with rfl | har
    · rcases List.mem_cons.mp ha2 with rfl | ha2r
      · rfl
      · exact absurd (hurl ▸ List.mem_map_of_mem (fun x : Article => x.url)
          ha2r) hU.1
    · rcases List.mem_cons.mp ha2 with rfl | ha2r
      · have : a2.url ∈ rest.map (fun x : Article => x.url) := by
          rw [hurl]
          exact List.mem_map_of_mem _ har
        exact absurd this hU.1
      · exact ih hU.2 har ha2r

theorem processFeed_okCase (db : List Article) (now : DateTime) (u : Bool)
    (f : FeedInput) (entries : List Entry)
    (hne : ¬(f.name = "" ∨ f.url = ""))
    (hok : f.parseResult = .ok entries) :
    processFeed db now u f =
      match updateLoop (existingEntriesOf db entries)
          (existingMapOf db entries) [] with
      | none => none
      | some (mF, upd) =>
        some ⟨applyUpdates (insertPhase db f.bulkInsertFails entries).1
            mF upd,
          bookkeep f u now,
          ⟨f.name, (insertPhase db f.bulkInsertFails entries).2,
            upd.length, none, some entries.length⟩⟩ := by
  rw [processFeed, if_neg hne, hok]

/-- The insert phase only appends rows whose URLs were absent, and
preserves URL uniqueness. -/
theorem insertPhase_extends (db : List Article) (bfail : Bool)
    (entries : List Entry) (hU : urlsUnique db) :
    (∃ ext, (insertPhase db bfail entries).1 = db ++ ext ∧
      ∀ x ∈ ext, x.url ∉ db.map (·.url)) ∧
      urlsUnique (insertPhase db bfail entries).1 := by
  rw [insertPhase]
  split_ifs
  · exact ⟨⟨[], by simp, by simp⟩, hU⟩
  · exact ⟨⟨[], by simp, by simp⟩, hU⟩
  · obtain ⟨extra, heq, hprop⟩ :=
      bulkCreate_extends (newObjectsOf db entries) db
    exact ⟨⟨extra, heq, fun x hx => (hprop x hx).2⟩,
      bulkCreate_urlsUnique _ db hU⟩

/-- One feed's processing only appends rows, preserves URL uniqueness,
and moves every stored `published_at` monotonically. -/
theorem processFeed_mono (db : List Article) (now : DateTime) (u : Bool)
    (f : FeedInput) (pf : PerFeed) (hU : urlsUnique db)
    (h : processFeed db now u f = some pf) :
    (∃ ext, pf.db.map (·.url) = db.map (·.url) ++ ext) ∧
      urlsUnique pf.db ∧
      ∀ a ∈ db, ∀ a2 ∈ pf.db, a2.url = a.url →
        pubMono a.published_at a2.published_at := by
  by_cases hne : f.name = "" ∨ f.url = ""
  · rw [processFeed, if_pos hne] at h
    have hpf := (Option.some.inj h).symm
    subst hpf
    refine ⟨⟨[], by simp⟩, hU, ?_⟩
    intro a ha a2 ha2 hurl
    rw [urlsUnique_eq_of_mem db hU a a2 ha ha2 hurl]
    exact pubMono_refl _
  · cases hparse : f.parseResult with
    | error msg =>
      rw [processFeed, if_neg hne, hparse] at h
      have hpf := (Option.some.inj h).symm
      subst hpf
      refine ⟨⟨[], by simp⟩, hU, ?_⟩
      intro a ha a2 ha2 hurl
      rw [urlsUnique_eq_of_mem db hU a a2 ha ha2 hurl]
      exact pubMono_refl _
    | ok entries =>
      rw [processFeed_okCase db now u f entries hne hparse] at h
      split at h
      · cases h
      · rename_i mF upd hloop
        have hpf := (Option.some.inj h).symm
        subst hpf
        have hkey : ∀ k b, mapGet mF k = some b → b.url = k := by
          intro k b hget
          obtain ⟨a1, hget0, hmono, hurl⟩ :=
            updateLoop_mono _ _ _ _ _ hloop _ _ hget
          rw [existingMapOf] at hget0
          obtain ⟨hmem1, hurl1⟩ := mapGet_buildMap_mem _ _ _ hget0
          rw [hurl, hurl1]
        obtain ⟨⟨ext1, hdb1eq, hextprop⟩, hdb1U⟩ :=
          insertPhase_extends db f.bulkInsertFails entries hU
        have hrowurl : ∀ row : Article,
            (if row.url ∈ upd then (mapGet mF row.url).getD row
              else row).url = row.url := by
          intro row
          by_cases hin : row.url ∈ upd
          · rw [if_pos hin]
            cases hget : mapGet mF row.url with
            | none => rfl
            | some b =>
              simp only [Option.getD_some]
              exact hkey _ _ hget
          · rw [if_neg hin]
        have hmapurl : (applyUpdates (insertPhase db f.bulkInsertFails
            entries).1 mF upd).map (·.url) =
            ((insertPhase db f.bulkInsertFails entries).1).map (·.url) := by
          rw [applyUpdates, List.map_map]
          refine List.map_congr_left ?_
          intro row hrow
          exact hrowurl row
        refine ⟨⟨ext1.map (·.url), by rw [hmapurl, hdb1eq]; simp⟩, ?_, ?_⟩
        · rw [urlsUnique, hmapurl]
          exact hdb1U
        · intro a ha a2 ha2 hurl
          obtain ⟨row, hrowmem, hrowa2⟩ := List.mem_map.mp ha2
          have hrowu : row.url = a.url := by
            rw [← hurl, ← hrowa2]
            exact (hrowurl row).symm
          have hrowdb : row ∈ db := by
            rw [hdb1eq] at hrowmem
            rcases List.mem_append.mp hrowmem with hmem | hmem
            · exact hmem
            · exact absurd
                (hrowu ▸ List.mem_map_of_mem (fun x : Article => x.url) ha)
                (hextprop row hmem)
          obtain rfl : row = a :=
            urlsUnique_eq_of_mem db hU a row ha hrowdb hrowu
          rw [← hrowa2]
          by_cases hin : row.url ∈ upd
          · rw [if_pos hin]
            cases hget : mapGet mF row.url with
            | none => exact pubMono_refl _
            | some b =>
              obtain ⟨a1, hget0, hmono, hurlb⟩ :=
                updateLoop_mono _ _ _ _ _ hloop _ _ hget
              rw [existingMapOf] at hget0
              obtain ⟨hmem1, hurl1⟩ := mapGet_buildMap_mem _ _ _ hget0
              have ha1db : a1 ∈ db := by
                rw [existingArticlesOf] at hmem1
                exact (List.mem_filter.mp hmem1).1
              obtain rfl : a1 = row :=
                urlsUnique_eq_of_mem db hU row a1 hrowdb ha1db hurl1
              simpa using hmono
          · rw [if_neg hin]
            exact pubMono_refl _

theorem process_feeds_nil (db : List Article) (now : DateTime) (u : Bool) :
    process_feeds db now u [] = some ⟨db, [], 0, []⟩ := rfl

theorem process_feeds_cons (db : List Article) (now : DateTime) (u : Bool)
    (f : FeedInput) (rest : List FeedInput) :
    process_feeds db now u (f :: rest) =
      (match processFeed db now u f with
      | none => none
      | some pf =>
        match process_feeds pf.db now u rest with
        | none => none
        | some out =>
          some ⟨out.db, pf.feed :: out.feeds,
            pf.result.added + out.total_new, pf.result :: out.details⟩) :=
  rfl

/-- A whole `process_feeds` run only appends rows, preserves URL
uniqueness, and moves every stored `published_at` monotonically. -/
theorem process_feeds_mono (feeds : List FeedInput) (db : List Article)
    (now : DateTime) (u : Bool) (out : RunOutcome) (hU : urlsUnique db)
    (h : process_feeds db now u feeds = some out) :
    (∃ ext, out.db.map (·.url) = db.map (·.url) ++ ext) ∧
      urlsUnique out.db ∧
      ∀ a ∈ db, ∀ a2 ∈ out.db, a2.url = a.url →
        pubMono a.published_at a2.published_at := by
  induction feeds generalizing db out with
  | nil =>
    rw [process_feeds_nil] at h
    have hout := (Option.some.inj h).symm
    subst hout
    refine ⟨⟨[], by simp⟩, hU, ?_⟩
    intro a ha a2 ha2 hurl
    rw [urlsUnique_eq_of_mem db hU a a2 ha ha2 hurl]
    exact pubMono_refl _
  | cons f rest ih =>
    rw [process_feeds_cons] at h
    split at h
    · cases h
    · rename_i pf hpf
      split at h
      · cases h
      · rename_i out1 hrest
        obtain ⟨⟨ext1, hext1⟩, hU1, hmono1⟩ :=
          processFeed_mono db now u f pf hU hpf
        obtain ⟨⟨ext2, hext2⟩, hU2, hmono2⟩ := ih pf.db out1 hU1 hrest
        have hout := (Option.some.inj h).symm
        subst hout
        refine ⟨⟨ext1 ++ ext2, ?_⟩, hU2, ?_⟩
        · rw [hext2, hext1, List.append_assoc]
        · intro a ha a2 ha2 hurl
          have hmid : ∃ a1 ∈ pf.db, a1.url = a.url := by
            have : a.url ∈ pf.db.map (·.url) := by
              rw [hext1]
              exact List.mem_append_left _
                (List.mem_map_of_mem (fun x : Article => x.url) ha)
            obtain ⟨a1, ha1, ha1u⟩ := List.mem_map.mp this
            exact ⟨a1, ha1, ha1u⟩
          obtain ⟨a1, ha1, ha1u⟩ := hmid
          exact pubMono_trans (hmono1 a ha a1 ha1 ha1u)
            (hmono2 a1 ha1 a2 ha2 (by rw [hurl, ha1u]))

/-! ## Generic list facts used by the extractor and scheduler claims -/

theorem filterMap_skip_filter {α β : Type} (g : α → Option β)
    (q : α → Bool) (l : List α) (h : ∀ x ∈ l, q x = false → g x = none) :
    l.filterMap g = (l.filter q).filterMap g := by
  induction l with
  | nil => rfl
  | cons x rest ih =>
    have ihr := ih (fun y hy => h y (List.mem_cons_of_mem _ hy))
    cases hq : q x with
    | true =>
      rw [List.filter_cons_of_pos hq, List.filterMap_cons,
        List.filterMap_cons]
      cases g x with
      | none => exact ihr
      | some b => rw [ihr]
    | false =>
      rw [List.filter_cons_of_neg (by simp [hq]), List.filterMap_cons,
        h x (List.mem_cons_self _ _) hq]
      exact ihr

theorem filterMap_length_of_all_some {α β : Type} (g : α → Option β)
    (l : List α) (h : ∀ x ∈ l, (g x).isSome = true) :
    (l.filterMap g).length = l.length := by
  induction l with
  | nil => rfl
  | cons x rest ih =>
    rw [List.filterMap_cons]
    cases hx : g x with
    | none =>
      have := h x (List.mem_cons_self _ _)
      rw [hx] at this
      cases this
    | some b =>
      simp only [List.length_cons]
      rw [ih (fun y hy => h y (List.mem_cons_of_mem _ hy))]

theorem sliceBatchesGo_flatten (bsPred : Nat) (fuel : Nat) (l : List Nat)
    (hfuel : l.length ≤ fuel) : (sliceBatchesGo bsPred fuel l).flatten = l := by
  induction fuel generalizing l with
  | zero =>
    cases l with
    | nil => rfl
    | cons x rest => simp at hfuel
  | succ fuel ih =>
    cases l with
    | nil => rfl
    | cons x rest =>
      rw [sliceBatchesGo, List.flatten_cons]
      rw [ih ((x :: rest).drop (bsPred + 1))
        (by
          simp only [List.length_drop, List.length_cons]
          simp only [List.length_cons] at hfuel
          omega)]
      exact List.take_append_drop _ _

theorem sliceBatches_flatten (bsPred : Nat) (l : List Nat) :
    (sliceBatches bsPred l).flatten = l :=
  sliceBatchesGo_flatten bsPred l.length l (le_refl _)

/-- `should_fetch` spelled out as the spec's `Due` condition. -/
theorem should_fetch_iff (now : DateTime) (f : FeedRow) :
    should_fetch now f = true ↔
      (f.next_fetch = none ∨ ∃ t, f.next_fetch = some t ∧ t ≤ now) := by
  rw [should_fetch]
  cases hnf : f.next_fetch with
  | none => simp
  | some t => simp [hnf, ge_iff_le]

/-! ## Machinery for the idempotence analysis -/

theorem mapGet_isSome_iff_keys (m : List (String × Article)) (k : String) :
    (mapGet m k).isSome = true ↔ k ∈ m.map (·.1) := by
  induction m with
  | nil => simp [mapGet_nil]
  | cons q rest ih =>
    rw [mapGet_cons]
    by_cases hq : q.1 = k
    · simp [hq]
    · simp only [List.map_cons, List.mem_cons]
      rw [if_neg hq, ih]
      constructor
      · exact Or.inr
      · rintro (hk | hk)
        · exact absurd hk.symm hq
        · exact hk

theorem entry_eq_of_url_nodup (es : List Entry)
    (hnd : (es.map (·.url)).Nodup) (e e2 : Entry) (he : e ∈ es)
    (he2 : e2 ∈ es) (hurl : e2.url = e.url) : e2 = e := by
  induction es with
  | nil => cases he
  | cons x rest ih =>
    rw [List.map_cons, List.nodup_cons] at hnd
    rcases List.mem_cons.mp he with rfl | har
    · rcases List.mem_cons.mp he2 with rfl | ha2r
      · rfl
      · exact absurd (hurl ▸ List.mem_map_of_mem (fun x : Entry => x.url)
          ha2r) hnd.1
    · rcases List.mem_cons.mp he2 with rfl | ha2r
      · have : e2.url ∈ rest.map (fun x : Entry => x.url) := by
          rw [hurl]
          exact List.mem_map_of_mem _ har
        exact absurd this hnd.1
      · exact ih hnd.2 har ha2r

/-- A batch row whose URL is fresh — absent from storage and unique in
the batch — is really inserted by the ignore-on-conflict bulk insert. -/
theorem bulkCreate_mem (objs : List Article) (o : Article)
    (hnd : (objs.map (·.url)).Nodup) (ho : o ∈ objs) :
    ∀ db, o.url ∉ db.map (·.url) → o ∈ bulkCreateIgnoreConflicts db objs := by
  induction objs with
  | nil => cases ho
  | cons x rest ih =>
    intro db hfresh
    rw [List.map_cons, List.nodup_cons] at hnd
    rcases List.mem_cons.mp ho with rfl | hor
    · have hconf : ¬ db.any (fun a => a.url = o.url) = true := by
        intro hc
        simp only [List.any_eq_true, decide_eq_true_eq] at hc
        obtain ⟨a, ha, hak⟩ := hc
        exact hfresh (hak ▸ List.mem_map_of_mem (fun x : Article => x.url) ha)
      rw [bulkCreateIgnoreConflicts, List.foldl_cons, if_neg hconf]
      obtain ⟨extra, heq, -⟩ := bulkCreate_extends rest (db ++ [o])
      rw [bulkCreateIgnoreConflicts] at heq
      rw [heq]
      exact List.mem_append_left _ (List.mem_append_right _
        (List.mem_singleton_self _))
    · rw [bulkCreateIgnoreConflicts, List.foldl_cons]
      by_cases hconf : db.any (fun a => a.url = x.url)
      · rw [if_pos hconf]
        exact ih hnd.2 hor db hfresh
      · rw [if_neg hconf]
        refine ih hnd.2 hor (db ++ [x]) ?_
        rw [List.map_append]
        intro hmem
        rcases List.mem_append.mp hmem with hm | hm
        · exact hfresh hm
        · simp only [List.map_cons, List.map_nil,
            List.mem_singleton] at hm
          exact hnd.1 (hm ▸ List.mem_map_of_mem (fun x : Article => x.url)
            hor)

/-- Every URL in `updated_articles` after the loop was there before or
belongs to one of the visited entries. -/
theorem updateLoop_upd_from (es : List Entry)
    (m : List (String × Article)) (upd : List String)
    (mF : List (String × Article)) (updF : List String)
    (h : updateLoop es m upd = some (mF, updF)) (k : String)
    (hk : k ∈ updF) : k ∈ upd ∨ ∃ e ∈ es, e.url = k := by
  induction es generalizing m upd with
  | nil =>
    rw [updateLoop_nil] at h
    simp only [Option.some.injEq, Prod.mk.injEq] at h
    rw [← h.2] at hk
    exact Or.inl hk
  | cons e rest ih =>
    rw [updateLoop_cons] at h
    split at h
    · rcases ih _ _ h with hin | ⟨e2, he2, hu⟩
      · exact Or.inl hin
      · exact Or.inr ⟨e2, List.mem_cons_of_mem _ he2, hu⟩
    · rename_i article hm
      split at h
      · exact absurd h (by simp)
      · rename_i a2' ch hupd
        split at h
        · rcases ih _ _ h with hin | ⟨e2, he2, hu⟩
          · rcases List.mem_append.mp hin with hin2 | hin2
            · exact Or.inl hin2
            · simp only [List.mem_singleton] at hin2
              exact Or.inr ⟨e, List.mem_cons_self _ _, hin2.symm⟩
          · exact Or.inr ⟨e2, List.mem_cons_of_mem _ he2, hu⟩
        · rcases ih _ _ h with hin | ⟨e2, he2, hu⟩
          · exact Or.inl hin
          · exact Or.inr ⟨e2, List.mem_cons_of_mem _ he2, hu⟩

/-- When every entry's mapped article is already stable for it, the loop
is a no-op. -/
theorem updateLoop_stable (es : List Entry) (m : List (String × Article))
    (upd : List String)
    (h : ∀ e ∈ es, ∃ a, mapGet m e.url = some a ∧
      updateFromEntry a e = some (a, false)) :
    updateLoop es m upd = some (m, upd) := by
  induction es with
  | nil => rfl
  | cons e rest ih =>
    obtain ⟨a, hget, hstable⟩ := h e (List.mem_cons_self _ _)
    simp only [updateLoop_cons, hget, hstable, Bool.false_eq_true, if_false]
    exact ih (fun e2 he2 => h e2 (List.mem_cons_of_mem _ he2))

theorem applyUpdates_nil_upd (db1 : List Article)
    (mF : List (String × Article)) : applyUpdates db1 mF [] = db1 := by
  simp [applyUpdates]

theorem bookkeep_preserves (f : FeedInput) (u : Bool) (now : DateTime) :
    (bookkeep f u now).parseResult = f.parseResult ∧
    (bookkeep f u now).name = f.name ∧
    (bookkeep f u now).url = f.url ∧
    (bookkeep f u now).bulkInsertFails = f.bulkInsertFails ∧
    (bookkeep f u now).call_frequency = f.call_frequency := by
  rw [bookkeep]
  split_ifs <;> exact ⟨rfl, rfl, rfl, rfl, rfl⟩

theorem mem_entryUrlsOf (entries : List Entry) (e : Entry)
    (he : e ∈ entries) (hne : e.url ≠ "") : e.url ∈ entryUrlsOf entries := by
  rw [entryUrlsOf]
  refine List.mem_filter.mpr ⟨List.mem_map_of_mem (fun x : Entry => x.url) he, ?_⟩
  simpa using hne

/-- A URL of an incoming entry counts as existing exactly when some
stored row carries it. -/
theorem mem_existingUrlsOf (db : List Article) (entries : List Entry)
    (e : Entry) (he : e ∈ entries) (hne : e.url ≠ "") :
    e.url ∈ existingUrlsOf db entries ↔ ∃ a ∈ db, a.url = e.url := by
  rw [existingUrlsOf, ← mapGet_isSome_iff_keys]
  constructor
  · intro hsome
    obtain ⟨a, hget⟩ := Option.isSome_iff_exists.mp hsome
    rw [existingMapOf] at hget
    obtain ⟨hmem, hurl⟩ := mapGet_buildMap_mem _ _ _ hget
    rw [existingArticlesOf] at hmem
    exact ⟨a, (List.mem_filter.mp hmem).1, hurl⟩
  · intro ⟨a, ha, hurl⟩
    rw [existingMapOf]
    refine mapGet_buildMap_isSome _ _ ⟨a, ?_, hurl⟩
    rw [existingArticlesOf]
    refine List.mem_filter.mpr ⟨ha, ?_⟩
    simpa using hurl ▸ mem_entryUrlsOf entries e he hne

/-- After one successful pass of `processFeed` over entries with
pairwise-distinct, non-empty URLs, every entry finds a stored row with
its URL on which the field loop reports no change. -/
theorem processFeed_run1_stable (db : List Article) (now : DateTime)
    (u : Bool) (f : FeedInput) (entries : List Entry) (pf : PerFeed)
    (hU : urlsUnique db) (hne : ¬(f.name = "" ∨ f.url = ""))
    (hok : f.parseResult = .ok entries) (hbf : f.bulkInsertFails = false)
    (hnd : (entries.map (·.url)).Nodup) (hnn : ∀ e ∈ entries, e.url ≠ "")
    (h : processFeed db now u f = some pf) :
    ∀ e ∈ entries, ∃ a ∈ pf.db, a.url = e.url ∧
      updateFromEntry a e = some (a, false) := by
  rw [processFeed_okCase db now u f entries hne hok] at h
  split at h
  · cases h
  · rename_i mF upd hloop
    have hpf := (Option.some.inj h).symm
    subst hpf
    intro e he
    have hupdnil : ∀ k, k ∈ upd → ∃ e2 ∈ existingEntriesOf db entries,
        e2.url = k := by
      intro k hk
      rcases updateLoop_upd_from _ _ _ _ _ hloop k hk with hk2 | hk2
      · cases hk2
      · exact hk2
    by_cases hex : e.url ∈ existingUrlsOf db entries
    · have hE : e ∈ existingEntriesOf db entries := by
        rw [existingEntriesOf]
        refine List.mem_filter.mpr ⟨he, by simpa using hex⟩
      have hndE : ((existingEntriesOf db entries).map (·.url)).Nodup :=
        hnd.sublist ((List.filter_sublist entries).map (fun x : Entry => x.url))
      have hsome : (mapGet (existingMapOf db entries) e.url).isSome = true := by
        rw [mapGet_isSome_iff_keys]
        exact hex
      obtain ⟨a0, hget0⟩ := Option.isSome_iff_exists.mp hsome
      obtain ⟨a1, ch, hupd1, hgetF, hmemF⟩ :=
        updateLoop_track _ _ _ _ _ hloop e hE hndE a0 hget0
      have ha0props : a0 ∈ db ∧ a0.url = e.url := by
        rw [existingMapOf] at hget0
        obtain ⟨hmem, hurl⟩ := mapGet_buildMap_mem _ _ _ hget0
        rw [existingArticlesOf] at hmem
        exact ⟨(List.mem_filter.mp hmem).1, hurl⟩
      have ha0db1 : a0 ∈ (insertPhase db f.bulkInsertFails entries).1 := by
        obtain ⟨⟨ext, hexteq, -⟩, -⟩ :=
          insertPhase_extends db f.bulkInsertFails entries hU
        rw [hexteq]
        exact List.mem_append_left _ ha0props.1
      by_cases hin : e.url ∈ upd
      · have hch : ch = true := by
          rcases hmemF.mp hin with hfalse | htrue
          · cases hfalse
          · exact htrue
        subst hch
        refine ⟨a1, ?_, ?_, updateFromEntry_stable a0 e a1 true hupd1⟩
        · rw [applyUpdates]
          refine List.mem_map.mpr ⟨a0, ha0db1, ?_⟩
          rw [ha0props.2, if_pos hin, hgetF]
          rfl
        · rw [updateFromEntry_url a0 e a1 true hupd1, ha0props.2]
      · have hch : ch = false := by
          cases hchv : ch
          · rfl
          · exact absurd (hmemF.mpr (Or.inr hchv)) hin
        subst hch
        have ha1 : a1 = a0 := updateFromEntry_false a0 e a1 hupd1
        subst ha1
        refine ⟨a1, ?_, ha0props.2, hupd1⟩
        rw [applyUpdates]
        refine List.mem_map.mpr ⟨a1, ha0db1, ?_⟩
        rw [ha0props.2, if_neg hin]
    · have hN : e ∈ newEntriesOf db entries := by
        rw [newEntriesOf]
        refine List.mem_filter.mpr ⟨he, by simpa using hex⟩
      have hobj : entryToArticle e ∈ newObjectsOf db entries := by
        rw [newObjectsOf]
        exact List.mem_map_of_mem _ hN
      have hndO : ((newObjectsOf db entries).map (·.url)).Nodup := by
        rw [newObjectsOf, List.map_map]
        have : ((newEntriesOf db entries).map
            ((fun x : Article => x.url) ∘ entryToArticle)) =
            (newEntriesOf db entries).map (fun x : Entry => x.url) := by
          refine List.map_congr_left ?_
          intro x hx
          rfl
        rw [this, newEntriesOf]
        exact hnd.sublist
          ((List.filter_sublist entries).map (fun x : Entry => x.url))
      have hfresh : (entryToArticle e).url ∉ db.map (·.url) := by
        intro hmem
        obtain ⟨a, ha, hurl⟩ := List.mem_map.mp hmem
        exact hex ((mem_existingUrlsOf db entries e he (hnn e he)).mpr
          ⟨a, ha, hurl⟩)
      have hdb1 : (insertPhase db f.bulkInsertFails entries).1 =
          bulkCreateIgnoreConflicts db (newObjectsOf db entries) := by
        rw [insertPhase, hbf]
        rw [if_neg (by
          intro hempty
          rw [List.isEmpty_iff] at hempty
          rw [hempty] at hobj
          cases hobj)]
        rw [if_neg (by simp)]
      have hmemdb1 : entryToArticle e ∈
          (insertPhase db f.bulkInsertFails entries).1 := by
        rw [hdb1]
        exact bulkCreate_mem _ _ hndO hobj db hfresh
      have hnupd : e.url ∉ upd := by
        intro hin
        obtain ⟨e2, he2, hu2⟩ := hupdnil e.url hin
        rw [existingEntriesOf] at he2
        obtain ⟨he2e, he2ex⟩ := List.mem_filter.mp he2
        have : e2 = e := entry_eq_of_url_nodup entries hnd e e2 he he2e hu2
        subst this
        exact hex (by simpa using he2ex)
      refine ⟨entryToArticle e, ?_, rfl, updateFromEntry_fresh e⟩
      rw [applyUpdates]
      refine List.mem_map.mpr ⟨entryToArticle e, hmemdb1, ?_⟩
      rw [entryToArticle]
      rw [if_neg hnupd]

/-- When every incoming entry already has a stable stored row, the feed's
processing is a no-op: nothing inserted, nothing updated, store
unchanged. -/
theorem processFeed_stable (db2 : List Article) (now2 : DateTime)
    (u : Bool) (f2 : FeedInput) (entries : List Entry)
    (hU : urlsUnique db2) (hne : ¬(f2.name = "" ∨ f2.url = ""))
    (hok : f2.parseResult = .ok entries)
    (hnn : ∀ e ∈ entries, e.url ≠ "")
    (hstab : ∀ e ∈ entries, ∃ a ∈ db2, a.url = e.url ∧
      updateFromEntry a e = some (a, false)) :
    processFeed db2 now2 u f2 = some ⟨db2, bookkeep f2 u now2,
      ⟨f2.name, 0, 0, none, some entries.length⟩⟩ := by
  rw [processFeed_okCase db2 now2 u f2 entries hne hok]
  have hUE : ((existingArticlesOf db2 entries).map (·.url)).Nodup :=
    hU.sublist ((List.filter_sublist db2).map (fun x : Article => x.url))
  have hloop : updateLoop (existingEntriesOf db2 entries)
      (existingMapOf db2 entries) [] =
      some (existingMapOf db2 entries, []) := by
    refine updateLoop_stable _ _ _ ?_
    intro e he
    rw [existingEntriesOf] at he
    obtain ⟨hee, -⟩ := List.mem_filter.mp he
    obtain ⟨a, hadb, hurl, hstable⟩ := hstab e hee
    refine ⟨a, ?_, hstable⟩
    have hafilter : a ∈ existingArticlesOf db2 entries := by
      rw [existingArticlesOf]
      refine List.mem_filter.mpr ⟨hadb, ?_⟩
      simpa using hurl ▸ mem_entryUrlsOf entries e hee (hnn e hee)
    have := mapGet_buildMap_unique (existingArticlesOf db2 entries) a
      hUE hafilter
    rw [existingMapOf, ← hurl]
    exact this
  rw [hloop]
  have hnew : newObjectsOf db2 entries = [] := by
    rw [newObjectsOf, newEntriesOf]
    have : entries.filter
        (fun e => e.url ∉ existingUrlsOf db2 entries) = [] := by
      rw [List.filter_eq_nil_iff]
      intro e he
      obtain ⟨a, hadb, hurl, -⟩ := hstab e he
      have hmem := (mem_existingUrlsOf db2 entries e he (hnn e he)).mpr
        ⟨a, hadb, hurl⟩
      simp [hmem]
    rw [this]
    rfl
  have hinsert : insertPhase db2 f2.bulkInsertFails entries = (db2, 0) := by
    rw [insertPhase, if_pos (by rw [hnew]; rfl)]
  simp only [hinsert, applyUpdates_nil_upd]
  rfl

/-! ## The claims -/

theorem takeMaxEntries_none {α : Type} (l : List α) :
    takeMaxEntries none l = l := rfl

theorem dropByDates_cutoff_none (T : DateTime) :
    dropByDates none none (some T) none = false := rfl

theorem dropByDates_cutoff_some (T p : DateTime) :
    dropByDates none none (some T) (some p) = decide (p ≤ T) := rfl

/-- C9: for every feed, a fetch failure (network error, timeout, or
non-2xx HTTP status) in an extractor returns an empty entry sequence
rather than raising an exception to the caller — in all three
extractors. -/
theorem fetch_failure_yields_empty (msg : String)
    (pd : String → Option DateTime) (ef : Bool)
    (np : String → Option NewsArticle) (md : String → String)
    (lf : Option DateTime) (me : Option Nat) (sd ed : Option DateTime)
    (sel : HtmlSelectors) (fm : FieldMap) (ip : String) :
    parse_generic_feed (.failure msg) pd ef np md lf me sd ed = [] ∧
    parse_html_feed (.failure msg) sel pd ef np md lf me sd ed = [] ∧
    parse_json_feed (.failure msg) fm ip pd lf me sd ed = .ok [] :=
  ⟨rfl, rfl, rfl⟩

/-- C5: with `last_fetched = T`, no explicit `start_date` (and no
`end_date`), the generic extractor (i) emits nothing for an entry whose
parsed `published` is `≤ T` — dropping those entries beforehand changes
nothing — and (ii) keeps every entry whose `published` is strictly after
`T` or failed to parse, one output per such entry. -/
theorem incremental_cutoff_generic :
    (∀ (items : List RawEntry) (pd : String → Option DateTime) (ef : Bool)
      (np : String → Option NewsArticle) (md : String → String)
      (T : DateTime),
      parse_generic_feed (.success items) pd ef np md (some T) none
          none none =
        parse_generic_feed (.success (items.filter (fun re =>
            match (if re.pub_raw ≠ "" then pd (pyStrip re.pub_raw) else none) with
            | some p => decide (T < p)
            | none => true))) pd ef np md (some T) none none none) ∧
    (∀ (items : List RawEntry) (pd : String → Option DateTime) (ef : Bool)
      (np : String → Option NewsArticle) (md : String → String)
      (T : DateTime),
      (∀ re ∈ items, ∀ p,
        (if re.pub_raw ≠ "" then pd (pyStrip re.pub_raw) else none) = some p →
          T < p) →
      (parse_generic_feed (.success items) pd ef np md (some T) none
        none none).length = items.length) := by
  constructor
  · intro items pd ef np md T
    simp only [parse_generic_feed, takeMaxEntries_none]
    refine filterMap_skip_filter _ _ items ?_
    intro re hre hq
    cases hpub : (if re.pub_raw ≠ "" then pd (pyStrip re.pub_raw) else none) with
    | none => rw [hpub] at hq; cases hq
    | some p =>
      rw [hpub] at hq
      have hple : ¬ T < p := by simpa using hq
      rw [if_pos (by
        rw [dropByDates_cutoff_some]
        simp only [decide_eq_true_eq]
        exact Int.not_lt.mp hple)]
  · intro items pd ef np md T hall
    simp only [parse_generic_feed, takeMaxEntries_none]
    refine filterMap_length_of_all_some _ items ?_
    intro re hre
    cases hpub : (if re.pub_raw ≠ "" then pd (pyStrip re.pub_raw) else none) with
    | none =>
      rw [if_neg (by rw [dropByDates_cutoff_none]; simp)]
      rfl
    | some p =>
      have hTp := hall re hre p hpub
      rw [if_neg (by
        rw [dropByDates_cutoff_some]
        simp only [decide_eq_true_eq]
        exact Int.not_le.mpr hTp)]
      rfl

/-- C5 witness: a single entry parsed to instant 9 with `last_fetched 5`
is kept. -/
theorem incremental_cutoff_generic_witness :
    (parse_generic_feed (.success [⟨"u", "t", "d", "c", "a", [], "x"⟩])
      (fun _ => some 9) false (fun _ => none) (fun s => s) (some 5) none
      none none).length = 1 := by
  refine incremental_cutoff_generic.2 [⟨"u", "t", "d", "c", "a", [], "x"⟩]
    (fun _ => some 9) false (fun _ => none) (fun s => s) 5 ?_
  intro re hre p hp
  have h9 : ¬re.pub_raw = "" ∧ (9 : Int) = p := by simpa using hp
  rw [← h9.2]
  decide

/-- C7: `fetch_feeds_in_batches` dispatches exactly the feeds that are
due — `next_fetch` unset, or `now ≥ next_fetch` — and no others
(`should_fetch` modelled from the spec, see its docstring). -/
theorem batches_dispatch_exactly_due (now : DateTime) (batch_size : Nat)
    (feeds : List FeedRow) (batches : List (List Nat))
    (h : fetch_feeds_in_batches now batch_size feeds = some batches) :
    ∀ i, i ∈ batches.flatten ↔
      ∃ f ∈ feeds, f.id = i ∧
        (f.next_fetch = none ∨ ∃ t, f.next_fetch = some t ∧ t ≤ now) := by
  simp only [fetch_feeds_in_batches] at h
  by_cases hempty :
      ((feeds.filter (should_fetch now)).map (·.id)).length = 0
  · rw [if_pos hempty] at h
    obtain rfl : batches = [] := (Option.some.inj h).symm
    intro i
    simp only [List.flatten_nil, List.not_mem_nil, false_iff]
    rintro ⟨f, hf, hid, hdue⟩
    have hsf : should_fetch now f = true := (should_fetch_iff now f).mpr hdue
    have : f.id ∈ (feeds.filter (should_fetch now)).map (·.id) :=
      List.mem_map_of_mem _ (List.mem_filter.mpr ⟨hf, hsf⟩)
    rw [List.length_eq_zero.mp hempty] at this
    cases this
  · rw [if_neg hempty] at h
    cases batch_size with
    | zero => cases h
    | succ bs =>
      obtain rfl : batches = sliceBatches bs
          ((feeds.filter (should_fetch now)).map (·.id)) :=
        (Option.some.inj h).symm
      intro i
      rw [sliceBatches_flatten]
      constructor
      · intro hmem
        obtain ⟨f, hf, hid⟩ := List.mem_map.mp hmem
        obtain ⟨hfeeds, hsf⟩ := List.mem_filter.mp hf
        exact ⟨f, hfeeds, hid, (should_fetch_iff now f).mp hsf⟩
      · rintro ⟨f, hf, hid, hdue⟩
        exact List.mem_map.mpr ⟨f, List.mem_filter.mpr
          ⟨hf, (should_fetch_iff now f).mpr hdue⟩, hid⟩

/-- C7 witness: at `now = 10` with batch size 2, feeds with `next_fetch`
unset, `5` and `10` are dispatched and the one at `11` is not. -/
theorem batches_dispatch_exactly_due_witness :
    ((1 : Nat) ∈ ([[1, 2], [4]] : List (List Nat)).flatten ↔
      ∃ f ∈ ([⟨1, none⟩, ⟨2, some 5⟩, ⟨3, some 11⟩, ⟨4, some 10⟩] :
          List FeedRow), f.id = 1 ∧
        (f.next_fetch = none ∨ ∃ t, f.next_fetch = some t ∧ t ≤ 10)) :=
  batches_dispatch_exactly_due 10 2
    [⟨1, none⟩, ⟨2, some 5⟩, ⟨3, some 11⟩, ⟨4, some 10⟩] [[1, 2], [4]]
    (by decide) 1

/-- C8: when `update_last_fetched` is set and the feed's pipeline
completes (any entry list, including the empty one a fetch failure
yields), the feed's `last_fetched` becomes the current instant and
`next_fetch` exactly `last_fetched` plus `call_frequency` minutes; when
the parse step raises, the bookkeeping is skipped and the feed row is
returned untouched. -/
theorem bookkeeping_advances_on_completion :
    (∀ (db : List Article) (now : DateTime) (f : FeedInput)
      (entries : List Entry) (pf : PerFeed),
      f.name ≠ "" → f.url ≠ "" → f.parseResult = .ok entries →
      processFeed db now true f = some pf →
      pf.feed.last_fetched = some now ∧
      pf.feed.next_fetch = some (now + 60 * f.call_frequency) ∧
      ∀ t1 t2, pf.feed.last_fetched = some t1 →
        pf.feed.next_fetch = some t2 → t2 = t1 + 60 * f.call_frequency) ∧
    (∀ (db : List Article) (now : DateTime) (f : FeedInput) (msg : String),
      f.name ≠ "" → f.url ≠ "" → f.parseResult = .error msg →
      processFeed db now true f = some ⟨db, f,
        ⟨f.name, 0, 0, some ("Failed to parse feed: " ++ msg), none⟩⟩) := by
  constructor
  · intro db now f entries pf hname hurl hok h
    have hne : ¬(f.name = "" ∨ f.url = "") := by
      rintro (hc | hc)
      · exact hname hc
      · exact hurl hc
    rw [processFeed_okCase db now true f entries hne hok] at h
    split at h
    · cases h
    · rename_i mF upd hloop
      have hpf := (Option.some.inj h).symm
      subst hpf
      refine ⟨?_, ?_, ?_⟩
      · rw [bookkeep, if_pos rfl]
      · rw [bookkeep, if_pos rfl]
      · intro t1 t2 h1 h2
        rw [bookkeep, if_pos rfl] at h1 h2
        rw [← Option.some.inj h1, ← Option.some.inj h2]
  · intro db now f msg hname hurl herr
    have hne : ¬(f.name = "" ∨ f.url = "") := by
      rintro (hc | hc)
      · exact hname hc
      · exact hurl hc
    rw [processFeed, if_neg hne, herr]

/-- C10: the reported `added` is the length of the attempted-insert
list — duplicates included when two same-batch entries share a fresh URL
even though the ignore-on-conflict insert stores one row — and `0` when
the bulk insert raises an `IntegrityError`. -/
theorem added_counts_attempted_inserts :
    (∀ (db : List Article) (now : DateTime) (u : Bool) (f : FeedInput)
      (entries : List Entry) (pf : PerFeed),
      f.name ≠ "" → f.url ≠ "" → f.parseResult = .ok entries →
      processFeed db now u f = some pf →
      (f.bulkInsertFails = false →
        pf.result.added = (newObjectsOf db entries).length) ∧
      (f.bulkInsertFails = true → pf.result.added = 0)) ∧
    (process_feeds [] 0 false
        [⟨"f", "http://x", none, none, 10,
          .ok [⟨"u", "t1", "", "c1", [], [], [], none⟩,
            ⟨"u", "t2", "", "c2", [], [], [], none⟩], false⟩] =
      some ⟨[⟨"u", "t1", "c1", [], [], [], none⟩],
        [⟨"f", "http://x", none, none, 10,
          .ok [⟨"u", "t1", "", "c1", [], [], [], none⟩,
            ⟨"u", "t2", "", "c2", [], [], [], none⟩], false⟩],
        2, [⟨"f", 2, 0, none, some 2⟩]⟩) := by
  constructor
  · intro db now u f entries pf hname hurl hok h
    have hne : ¬(f.name = "" ∨ f.url = "") := by
      rintro (hc | hc)
      · exact hname hc
      · exact hurl hc
    rw [processFeed_okCase db now u f entries hne hok] at h
    split at h
    · cases h
    · rename_i mF upd hloop
      have hpf := (Option.some.inj h).symm
      subst hpf
      constructor
      · intro hbf
        show (insertPhase db f.bulkInsertFails entries).2 = _
        rw [insertPhase, hbf]
        by_cases hempty : (newObjectsOf db entries).isEmpty
        · rw [if_pos hempty]
          rw [List.isEmpty_iff.mp hempty]
          rfl
        · rw [if_neg hempty, if_neg (by simp)]
      · intro hbf
        show (insertPhase db f.bulkInsertFails entries).2 = _
        rw [insertPhase, hbf]
        by_cases hempty : (newObjectsOf db entries).isEmpty
        · rw [if_pos hempty]
        · rw [if_neg hempty, if_pos (by simp)]
  · decide

/-- C8 witness: a contentless completed fetch at instant 5 with a
10-minute frequency leaves `last_fetched = 5`, `next_fetch = 605`. -/
theorem bookkeeping_advances_on_completion_witness :
    ((⟨[], ⟨"f", "http://x", some 5, some 605, 10, .ok [], false⟩,
        ⟨"f", 0, 0, none, some 0⟩⟩ : PerFeed).feed.last_fetched = some 5 ∧
      (⟨[], ⟨"f", "http://x", some 5, some 605, 10, .ok [], false⟩,
        ⟨"f", 0, 0, none, some 0⟩⟩ : PerFeed).feed.next_fetch =
        some (5 + 60 * 10)) := by
  have h := bookkeeping_advances_on_completion.1 [] 5
    ⟨"f", "http://x", none, none, 10, .ok [], false⟩ []
    ⟨[], ⟨"f", "http://x", some 5, some 605, 10, .ok [], false⟩,
      ⟨"f", 0, 0, none, some 0⟩⟩
    (by decide) (by decide) rfl (by decide)
  exact ⟨h.1, h.2.1⟩

/-- C10 witness: with one fresh entry and a healthy insert, `added`
equals the attempted batch length, here `1`. -/
theorem added_counts_attempted_inserts_witness :
    ((⟨[⟨"u", "t1", "c1", [], [], [], none⟩],
        ⟨"f", "http://x", none, none, 10,
          .ok [⟨"u", "t1", "", "c1", [], [], [], none⟩], false⟩,
        ⟨"f", 1, 0, none, some 1⟩⟩ : PerFeed).result.added =
      (newObjectsOf [] [⟨"u", "t1", "", "c1", [], [], [], none⟩]).length) :=
  (added_counts_attempted_inserts.1 [] 0 false
    ⟨"f", "http://x", none, none, 10,
      .ok [⟨"u", "t1", "", "c1", [], [], [], none⟩], false⟩
    [⟨"u", "t1", "", "c1", [], [], [], none⟩]
    ⟨[⟨"u", "t1", "c1", [], [], [], none⟩],
      ⟨"f", "http://x", none, none, 10,
        .ok [⟨"u", "t1", "", "c1", [], [], [], none⟩], false⟩,
      ⟨"f", 1, 0, none, some 1⟩⟩
    (by decide) (by decide) rfl (by decide)).1 rfl

/-- C2 counterexample: stored `categories ["b","a"]` against incoming
`["a","b"]` — same membership, different order — is reported as changed:
`process_feeds` performs an update and overwrites the stored order. -/
theorem list_reorder_triggers_update_counterexample :
    (["b", "a"] : List String).Perm ["a", "b"] ∧
    process_feeds [⟨"u", "t", "c", [], ["b", "a"], [], none⟩] 0 false
        [⟨"f", "http://x", none, none, 10,
          .ok [⟨"u", "t", "", "c", [], ["a", "b"], [], none⟩], false⟩] =
      some ⟨[⟨"u", "t", "c", [], ["a", "b"], [], none⟩],
        [⟨"f", "http://x", none, none, 10,
          .ok [⟨"u", "t", "", "c", [], ["a", "b"], [], none⟩], false⟩],
        0, [⟨"f", 0, 1, none, some 1⟩]⟩ :=
  ⟨by decide, by decide⟩

/-- C2 amended: change detection on the list fields is positional, not
set-based — `has_changed` reports a change exactly when the lists differ
as sequences, and any sequence difference on `categories` (a reordering
included) flags the article and overwrites the field with the incoming
order. -/
theorem list_change_detection_positional :
    (∀ old_value new_value : List String,
      has_changed (.vList old_value) (.vList new_value) =
        some (decide ¬(old_value = new_value))) ∧
    (∀ (a : Article) (e : Entry) (a2 : Article) (c : Bool),
      updateFromEntry a e = some (a2, c) → a.categories ≠ e.categories →
      c = true ∧ a2.categories = e.categories) := by
  refine ⟨fun o n => rfl, ?_⟩
  intro a e a2 c h hdiff
  rw [updateFromEntry_eq] at h
  cases hhc : has_changed (pubVal a.published_at) (pubVal e.published) with
  | none => rw [hhc] at h; cases h
  | some c6 =>
    rw [hhc] at h
    simp only [Option.some.injEq, Prod.mk.injEq] at h
    have htl : (textListPass a e).2 = true := by
      cases htlv : (textListPass a e).2
      · exfalso
        have h1 := textListPass_snd_false a e htlv
        have h2 := (textListPass_spec a e).2.2.2.1
        rw [h1] at h2
        exact hdiff h2
      · rfl
    constructor
    · rw [← h.2, htl]
      rfl
    · have hcat := (textListPass_spec a e).2.2.2.1
      rw [← h.1]
      cases c6 <;> simp only [if_true, if_false, Bool.false_eq_true] <;>
        exact hcat

/-- C2 amended witness: a concrete reordered `categories` list flags the
update and stores the incoming order. -/
theorem list_change_detection_positional_witness :
    (true = true ∧
      (⟨"u", "t", "c", [], ["a", "b"], [], none⟩ : Article).categories =
        (⟨"u", "t", "", "c", [], ["a", "b"], [], none⟩ : Entry).categories) :=
  list_change_detection_positional.2
    ⟨"u", "t", "c", [], ["b", "a"], [], none⟩
    ⟨"u", "t", "", "c", [], ["a", "b"], [], none⟩
    ⟨"u", "t", "c", [], ["a", "b"], [], none⟩ true (by decide) (by decide)

/-- C3 counterexample: the generic extractor emits an entry whose URL tag
is missing as `url = ""`, and `process_feeds` inserts it as a new
article — it is not discarded before the Reconciler. -/
theorem urlless_entry_reaches_reconciler_counterexample :
    parse_generic_feed (.success [⟨"", "t", "d", "", "", [], ""⟩])
        (fun _ => none) false (fun _ => none) (fun s => s) none none
        none none =
      [⟨"", "t", "d", "d", [], [], [], none⟩] ∧
    process_feeds [] 0 false
        [⟨"f", "http://x", none, none, 10,
          .ok [⟨"", "t", "d", "d", [], [], [], none⟩], false⟩] =
      some ⟨[⟨"", "t", "d", [], [], [], none⟩],
        [⟨"f", "http://x", none, none, 10,
          .ok [⟨"", "t", "d", "d", [], [], [], none⟩], false⟩],
        1, [⟨"f", 1, 0, none, some 1⟩]⟩ :=
  ⟨by decide, by decide⟩

theorem jsonEntryOut_url_truthy (fm : FieldMap)
    (pd : String → Option DateTime) (lf : Option DateTime)
    (sd ed : Option DateTime) (entry : JVal) (o : JsonOut)
    (h : jsonEntryOut fm pd lf sd ed entry = some (some o)) :
    jTruthy o.url = true := by
  simp only [jsonEntryOut, Option.bind_eq_bind, Option.bind_eq_some] at h
  obtain ⟨sv, hsv, hcont⟩ := h
  split at hcont
  · simp only [pure, Option.some.injEq] at hcont
    cases hcont
  · split at hcont
    · simp only [pure, Option.some.injEq] at hcont
      cases hcont
    · rename_i hurl hdrop
      simp only [pure, Option.some.injEq] at hcont
      rw [← hcont]
      simpa using hurl

theorem parse_json_feed_url_truthy (fetched : Fetched JVal)
    (fm : FieldMap) (ip : String) (pd : String → Option DateTime)
    (lf : Option DateTime) (me : Option Nat) (sd ed : Option DateTime)
    (outs : List JsonOut)
    (h : parse_json_feed fetched fm ip pd lf me sd ed = .ok outs) :
    ∀ o ∈ outs, jTruthy o.url = true := by
  cases fetched with
  | failure msg =>
    obtain rfl : ([] : List JsonOut) = outs := by
      simpa [parse_json_feed] using h
    intro o ho
    cases ho
  | success data =>
    simp only [parse_json_feed] at h
    split at h
    · cases h
    · rename_i itemsV heq
      split at h
      · rename_i xs
        obtain rfl := Except.ok.inj h
        intro o ho
        obtain ⟨entry, hmem, hout⟩ := List.mem_filterMap.mp ho
        split at hout
        · cases hout
        · rename_i out hjson
          rw [hout] at hjson
          exact jsonEntryOut_url_truthy fm pd lf sd ed entry o hjson
      · obtain rfl := Except.ok.inj h
        intro o ho
        cases ho

theorem parse_html_feed_url_nonempty (fetched : Fetched (List HtmlBlock))
    (sel : HtmlSelectors) (pd : String → Option DateTime) (ef : Bool)
    (np : String → Option NewsArticle) (md : String → String)
    (lf : Option DateTime) (me : Option Nat) (sd ed : Option DateTime) :
    ∀ en ∈ parse_html_feed fetched sel pd ef np md lf me sd ed,
      en.url ≠ "" := by
  intro en hen
  cases fetched with
  | failure msg => cases hen
  | success blocks =>
    simp only [parse_html_feed] at hen
    obtain ⟨b, hb, heq⟩ := List.mem_filterMap.mp hen
    by_cases h1 : htmlUrlOf sel b = ""
    · rw [if_pos h1] at heq
      cases heq
    · rw [if_neg h1] at heq
      by_cases h2 : dropByDates sd ed lf (htmlPublishedOf sel pd b) = true
      · rw [if_pos h2] at heq
        cases heq
      · rw [if_neg h2] at heq
        rw [← Option.some.inj heq]
        exact h1

/-- C3 amended: the JSON and HTML extractors discard an entry whose URL
does not resolve (falsy, resp. empty) before reaching the Reconciler;
the generic extractor does not — it emits such an entry with `url = ""`
and `process_feeds` inserts it as a new article. -/
theorem url_discard_json_html_only :
    (∀ (fetched : Fetched JVal) (fm : FieldMap) (ip : String)
      (pd : String → Option DateTime) (lf : Option DateTime)
      (me : Option Nat) (sd ed : Option DateTime) (outs : List JsonOut),
      parse_json_feed fetched fm ip pd lf me sd ed = .ok outs →
      ∀ o ∈ outs, jTruthy o.url = true) ∧
    (∀ (fetched : Fetched (List HtmlBlock)) (sel : HtmlSelectors)
      (pd : String → Option DateTime) (ef : Bool)
      (np : String → Option NewsArticle) (md : String → String)
      (lf : Option DateTime) (me : Option Nat) (sd ed : Option DateTime),
      ∀ en ∈ parse_html_feed fetched sel pd ef np md lf me sd ed,
        en.url ≠ "") ∧
    (parse_generic_feed (.success [⟨"", "t", "d", "", "", [], ""⟩])
        (fun _ => none) false (fun _ => none) (fun s => s) none none
        none none =
      [⟨"", "t", "d", "d", [], [], [], none⟩] ∧
    process_feeds [] 0 false
        [⟨"g", "http://y", none, none, 10,
          .ok [⟨"", "t", "d", "d", [], [], [], none⟩], false⟩] =
      some ⟨[⟨"", "t", "d", [], [], [], none⟩],
        [⟨"g", "http://y", none, none, 10,
          .ok [⟨"", "t", "d", "d", [], [], [], none⟩], false⟩],
        1, [⟨"g", 1, 0, none, some 1⟩]⟩) :=
  ⟨fun fetched fm ip pd lf me sd ed outs h =>
      parse_json_feed_url_truthy fetched fm ip pd lf me sd ed outs h,
    fun fetched sel pd ef np md lf me sd ed =>
      parse_html_feed_url_nonempty fetched sel pd ef np md lf me sd ed,
    by decide, by decide⟩

/-- C3 amended witness: a JSON run whose one entry resolves a URL keeps
it with a truthy URL value. -/
theorem url_discard_json_html_only_witness :
    jTruthy (⟨JVal.jstr "u", "t", "", "", [], [], [], none⟩ :
      JsonOut).url = true :=
  url_discard_json_html_only.1
    (.success (.jobj [("items", .jarr [.jobj [("link", .jstr "u"),
      ("name", .jstr "t")]])]))
    ⟨some "name", some "link", none, none, none, none, none⟩ "items"
    (fun _ => none) none none none none
    [⟨JVal.jstr "u", "t", "", "", [], [], [], none⟩]
    (by rfl)
    ⟨JVal.jstr "u", "t", "", "", [], [], [], none⟩
    (List.mem_singleton_self _)

/-- C6 counterexample: one existing article with a stored `published_at`
and an incoming entry without one make `has_changed` call `.strip()` on a
`datetime`; the exception is outside the `try` that guards only
`parse_feed`, so `process_feeds` aborts with no result list at all. -/
theorem reconcile_exception_escapes_counterexample :
    process_feeds [⟨"u", "t", "c", [], [], [], some 5⟩] 0 false
        [⟨"f", "http://x", none, none, 10,
          .ok [⟨"u", "t", "", "c", [], [], [], none⟩], false⟩] = none :=
  by decide

/-- C6 amended: a per-feed summary is produced for every feed as long as
no exception escapes the reconcile/store phase — one summary per feed in
a completed run — and a missing name/URL or a `parse_feed` exception is
caught per feed, yielding an error summary with zero counts and an
untouched store; an exception raised in the reconcile phase itself (see
the counterexample) aborts the whole call instead. -/
theorem per_feed_summary_on_completion :
    (∀ (db : List Article) (now : DateTime) (u : Bool)
      (feeds : List FeedInput) (out : RunOutcome),
      process_feeds db now u feeds = some out →
      out.details.length = feeds.length) ∧
    (∀ (db : List Article) (now : DateTime) (u : Bool) (f : FeedInput)
      (msg : String), f.parseResult = .error msg →
      ∃ pf, processFeed db now u f = some pf ∧ pf.db = db ∧
        pf.result.error.isSome = true ∧ pf.result.added = 0 ∧
        pf.result.updated = 0) := by
  constructor
  · intro db now u feeds out h
    induction feeds generalizing db out with
    | nil =>
      rw [process_feeds_nil] at h
      rw [← (Option.some.inj h)]
      rfl
    | cons f rest ih =>
      rw [process_feeds_cons] at h
      split at h
      · cases h
      · rename_i pf hpf
        split at h
        · cases h
        · rename_i out1 hrest
          rw [← (Option.some.inj h)]
          simp only [List.length_cons]
          rw [ih pf.db out1 hrest]
  · intro db now u f msg herr
    by_cases hne : f.name = "" ∨ f.url = ""
    · refine ⟨⟨db, f, ⟨f.url, 0, 0,
        some "Missing required fields (name or URL), skipping.", none⟩⟩,
        ?_, rfl, rfl, rfl, rfl⟩
      rw [processFeed, if_pos hne]
    · refine ⟨⟨db, f, ⟨f.name, 0, 0,
        some ("Failed to parse feed: " ++ msg), none⟩⟩, ?_, rfl, rfl,
        rfl, rfl⟩
      rw [processFeed, if_neg hne, herr]

/-- C6 amended witness: a parse failure still yields exactly one
summary. -/
theorem per_feed_summary_on_completion_witness :
    (⟨[], [⟨"f", "http://x", none, none, 10, .error "boom", false⟩], 0,
      [⟨"f", 0, 0, some "Failed to parse feed: boom", none⟩]⟩ :
      RunOutcome).details.length = 1 :=
  per_feed_summary_on_completion.1 [] 0 false
    [⟨"f", "http://x", none, none, 10, .error "boom", false⟩]
    ⟨[], [⟨"f", "http://x", none, none, 10, .error "boom", false⟩], 0,
      [⟨"f", 0, 0, some "Failed to parse feed: boom", none⟩]⟩
    (by decide)

/-- C1: `published_at` is overwritten only when the incoming value is
present and strictly later than the stored one (field-loop level), and
across any completed `process_feeds` run a stored row's `published_at`
never regresses and is never cleared (store level). -/
theorem published_at_monotone :
    (∀ (a : Article) (e : Entry) (a2 : Article) (c : Bool),
      updateFromEntry a e = some (a2, c) →
      a2.published_at = a.published_at ∨
        ∃ p q, a.published_at = some p ∧ e.published = some q ∧ p < q ∧
          a2.published_at = some q) ∧
    (∀ (feeds : List FeedInput) (db : List Article) (now : DateTime)
      (u : Bool) (out : RunOutcome), urlsUnique db →
      process_feeds db now u feeds = some out →
      ∀ a ∈ db, ∀ a2 ∈ out.db, a2.url = a.url →
        pubMono a.published_at a2.published_at) :=
  ⟨updateFromEntry_pub,
    fun feeds db now u out hU h =>
      (process_feeds_mono feeds db now u out hU h).2.2⟩

/-- C1 witness: a stored instant 5 advanced by an incoming 7. -/
theorem published_at_monotone_witness :
    pubMono (some 5) (some 7) :=
  published_at_monotone.2
    [⟨"f", "http://x", none, none, 10,
      .ok [⟨"u", "t", "", "c", [], [], [], some 7⟩], false⟩]
    [⟨"u", "t", "c", [], [], [], some 5⟩] 0 false
    ⟨[⟨"u", "t", "c", [], [], [], some 7⟩],
      [⟨"f", "http://x", none, none, 10,
        .ok [⟨"u", "t", "", "c", [], [], [], some 7⟩], false⟩],
      0, [⟨"f", 0, 1, none, some 1⟩]⟩
    (by rw [urlsUnique]; decide) (by decide)
    ⟨"u", "t", "c", [], [], [], some 5⟩ (by decide)
    ⟨"u", "t", "c", [], [], [], some 7⟩ (by decide) (by decide)

theorem processFeed_feed_ok (db : List Article) (now : DateTime)
    (u : Bool) (f : FeedInput) (entries : List Entry) (pf : PerFeed)
    (hne : ¬(f.name = "" ∨ f.url = ""))
    (hok : f.parseResult = .ok entries)
    (h : processFeed db now u f = some pf) :
    pf.feed = bookkeep f u now := by
  rw [processFeed_okCase db now u f entries hne hok] at h
  split at h
  · cases h
  · rename_i mF upd hloop
    rw [← (Option.some.inj h)]

/-- C4 counterexample: an entry whose `url` is the empty string is falsy
in Python, so `entry_urls` drops it, the existing row with that URL is
never looked up, the entry is rebuilt as a "new" object on every run,
and `ignore_conflicts` silently discards the duplicate while
`new_count = len(new_objects)` still reports it as created — the second
run against the unchanged feed reports one created record, not zero. -/
theorem rerun_idempotent_counterexample :
    process_feeds [] 0 true
        [⟨"f", "http://x", none, none, 10,
          .ok [⟨"", "t", "", "c", [], [], [], none⟩], false⟩] =
      some ⟨[⟨"", "t", "c", [], [], [], none⟩],
        [⟨"f", "http://x", some 0, some 600, 10,
          .ok [⟨"", "t", "", "c", [], [], [], none⟩], false⟩],
        1, [⟨"f", 1, 0, none, some 1⟩]⟩ ∧
    process_feeds [⟨"", "t", "c", [], [], [], none⟩] 1 true
        [⟨"f", "http://x", some 0, some 600, 10,
          .ok [⟨"", "t", "", "c", [], [], [], none⟩], false⟩] =
      some ⟨[⟨"", "t", "c", [], [], [], none⟩],
        [⟨"f", "http://x", some 1, some 601, 10,
          .ok [⟨"", "t", "", "c", [], [], [], none⟩], false⟩],
        1, [⟨"f", 1, 0, none, some 1⟩]⟩ := by
  decide

/-- C4 amended: rerunning `process_feeds` on one feed is idempotent
provided the store's URLs are unique and the unchanged extractor output
has pairwise-distinct, non-empty URLs: the second run succeeds, leaves
the store untouched, and reports zero created and zero updated records
for every feed. -/
theorem rerun_idempotent_amended
    (db : List Article) (now now2 : DateTime) (u : Bool) (f : FeedInput)
    (entries : List Entry) (out1 : RunOutcome)
    (hU : urlsUnique db) (hok : f.parseResult = .ok entries)
    (hbf : f.bulkInsertFails = false)
    (hnd : (entries.map (·.url)).Nodup)
    (hnn : ∀ e ∈ entries, e.url ≠ "")
    (h1 : process_feeds db now u [f] = some out1) :
    ∃ out2, process_feeds out1.db now2 u out1.feeds = some out2 ∧
      out2.db = out1.db ∧ out2.total_new = 0 ∧
      ∀ r ∈ out2.details, r.added = 0 ∧ r.updated = 0 := by
  rw [process_feeds_cons] at h1
  split at h1
  · cases h1
  · rename_i pf hpf
    rw [process_feeds_nil] at h1
    have hout1 : out1 = ⟨pf.db, [pf.feed], pf.result.added + 0,
        [pf.result]⟩ := (Option.some.inj h1).symm
    subst hout1
    by_cases hne : f.name = "" ∨ f.url = ""
    · rw [processFeed, if_pos hne] at hpf
      have hpfe : pf = ⟨db, f, ⟨f.url, 0, 0,
          some "Missing required fields (name or URL), skipping.",
          none⟩⟩ := (Option.some.inj hpf).symm
      subst hpfe
      show ∃ out2, process_feeds db now2 u [f] = some out2 ∧
        out2.db = db ∧ out2.total_new = 0 ∧
        ∀ r ∈ out2.details, r.added = 0 ∧ r.updated = 0
      refine ⟨⟨db, [f], 0, [⟨f.url, 0, 0,
        some "Missing required fields (name or URL), skipping.",
        none⟩]⟩, ?_, rfl, rfl, ?_⟩
      · rw [process_feeds_cons, processFeed, if_pos hne]
        rfl
      · intro r hr
        rw [List.mem_singleton] at hr
        subst hr
        exact ⟨rfl, rfl⟩
    · have hfeed : pf.feed = bookkeep f u now :=
        processFeed_feed_ok db now u f entries pf hne hok hpf
      have hprop := bookkeep_preserves f u now
      have hok2 : pf.feed.parseResult = Except.ok entries := by
        rw [hfeed, hprop.1, hok]
      have hne2 : ¬(pf.feed.name = "" ∨ pf.feed.url = "") := by
        rw [hfeed, hprop.2.1, hprop.2.2.1]
        exact hne
      have hU2 : urlsUnique pf.db :=
        (processFeed_mono db now u f pf hU hpf).2.1
      have hstab :=
        processFeed_run1_stable db now u f entries pf hU hne hok hbf
          hnd hnn hpf
      have h2 :=
        processFeed_stable pf.db now2 u pf.feed entries hU2 hne2 hok2
          hnn hstab
      show ∃ out2, process_feeds pf.db now2 u [pf.feed] = some out2 ∧
        out2.db = pf.db ∧ out2.total_new = 0 ∧
        ∀ r ∈ out2.details, r.added = 0 ∧ r.updated = 0
      refine ⟨⟨pf.db, [bookkeep pf.feed u now2],
        0, [⟨pf.feed.name, 0, 0, none, some entries.length⟩]⟩,
        ?_, rfl, rfl, ?_⟩
      · rw [process_feeds_cons, h2]
        rfl
      · intro r hr
        rw [List.mem_singleton] at hr
        subst hr
        exact ⟨rfl, rfl⟩

/-- C4 amended witness: a concrete second run over one already-stored
article with a proper URL creates and updates nothing. -/
theorem rerun_idempotent_amended_witness :
    ∃ out2, process_feeds [⟨"u", "t", "c", [], [], [], none⟩] 1 true
        [⟨"f", "http://x", some 0, some 600, 10,
          .ok [⟨"u", "t", "", "c", [], [], [], none⟩], false⟩] =
        some out2 ∧
      out2.db = [⟨"u", "t", "c", [], [], [], none⟩] ∧
      out2.total_new = 0 ∧
      ∀ r ∈ out2.details, r.added = 0 ∧ r.updated = 0 :=
  rerun_idempotent_amended [] 0 1 true
    ⟨"f", "http://x", none, none, 10,
      .ok [⟨"u", "t", "", "c", [], [], [], none⟩], false⟩
    [⟨"u", "t", "", "c", [], [], [], none⟩]
    ⟨[⟨"u", "t", "c", [], [], [], none⟩],
      [⟨"f", "http://x", some 0, some 600, 10,
        .ok [⟨"u", "t", "", "c", [], [], [], none⟩], false⟩],
      1, [⟨"f", 1, 0, none, some 1⟩]⟩
    (by rw [urlsUnique]; decide) rfl rfl (by decide) (by decide)
    (by decide)
